import Mathlib

/-!
Verification development for the w6ara-fd-sim power scheduler.

The Python sources (types.py, scheduler.py) are embedded shallowly:

* all float arithmetic is modelled exactly over the rationals;
* the float value inf, used as the "infinite energy" sentinel for
  `total_energy_wh`, is modelled by the two-constructor type `Energy`;
* Python dicts are modelled by insertion-ordered association lists
  (`dlookup`, `dinsert`, `dupdate`): inserting an existing key overwrites
  the value in place, a fresh key is appended at the end, exactly the
  Python dict semantics used by the scheduler;
* the in-place mutation of `PowerSource.schedule` and the local dicts of
  `generate_schedule` becomes explicit state passing (`AllocState`);
* `raise ValueError` becomes `Except.error`.

The mutated `PowerSource.schedule` lists are returned in the
`schedules` field of `ScheduleResult` (in site source order), modelling
the documented side effect of `generate_schedule`.
-/

/-- Association list lookup, first match wins.  Models Python dict
lookup on the dicts below, whose keys are pairwise distinct by
construction. -/
def dlookup {α : Type} (d : List (String × α)) (k : String) : Option α :=
  match d with
  | [] => none
  | p :: rest => if p.1 = k then some p.2 else dlookup rest k

/-- Association list insert: overwrite the first entry with the key,
or append a fresh entry at the end.  Models Python `d[k] = v`. -/
def dinsert {α : Type} (d : List (String × α)) (k : String) (v : α) : List (String × α) :=
  match d with
  | [] => [(k, v)]
  | p :: rest => if p.1 = k then (k, v) :: rest else p :: dinsert rest k v

/-- Association list in-place value update at a key that is present;
leaves the list unchanged when the key is absent (all uses below are at
keys that are provably present, where Python would also not raise). -/
def dupdate {α : Type} (d : List (String × α)) (k : String) (f : α → α) : List (String × α) :=
  match d with
  | [] => []
  | p :: rest => if p.1 = k then (p.1, f p.2) :: rest else p :: dupdate rest k f

/-- The value of the float field `total_energy_wh`: either the
float inf sentinel or an exact finite quantity. -/
inductive Energy : Type where
  | inf : Energy
  | fin : ℚ → Energy
deriving DecidableEq, Repr

/-- types.py, class LoadComponent (fields after `__init__` ran). -/
structure LoadComponent : Type where
  name : String
  power_w : ℚ
  duty_cycle : List ℚ
deriving DecidableEq, Repr

/-- types.py, `LoadComponent.__init__`: a missing / None duty cycle
defaults to 24 entries of 1.0 (always on). -/
def LoadComponent.make (name : String) (power_w : ℚ) (duty_cycle : Option (List ℚ)) :
    LoadComponent :=
  ⟨name, power_w,
    match duty_cycle with
    | none => List.replicate 24 1
    | some d => d⟩

/-- types.py, `LoadComponent.power_at_hour`.  The claims only evaluate
it at hours inside the duty-cycle list; out-of-range hours (an
IndexError in Python) read as 0 here. -/
def LoadComponent.power_at_hour (c : LoadComponent) (hour : ℕ) : ℚ :=
  c.power_w * c.duty_cycle.getD hour 0

/-- types.py, class PowerSink.  The `location` field is ignored by the
allocator (spec section 4.3) and is omitted. -/
structure PowerSink : Type where
  name : String
  components : List LoadComponent
deriving DecidableEq, Repr

/-- types.py, `PowerSink.total_power_at_hour`. -/
def PowerSink.total_power_at_hour (sk : PowerSink) (hour : ℕ) : ℚ :=
  (sk.components.map (fun c => c.power_at_hour hour)).sum

/-- types.py, class PowerSource (immutable fields; the mutable
`schedule` list lives in `AllocState` / `ScheduleResult.schedules`).
The `location` field is ignored by the allocator and is omitted. -/
structure PowerSource : Type where
  name : String
  max_power_w : ℚ
  voltage_v : ℚ
  total_energy_wh : Energy
deriving DecidableEq, Repr

/-- types.py, `PowerSource.can_supply` on an explicit schedule list. -/
def can_supply (s : PowerSource) (schedule : List ℚ) (hour : ℕ) (load_w : ℚ) : Bool :=
  decide (schedule.getD hour 0 + load_w ≤ s.max_power_w)

/-- types.py, `PowerSource.assign_load`: add the load at the hour, or
raise ValueError when the commit would exceed the cap. -/
def assign_load (s : PowerSource) (schedule : List ℚ) (hour : ℕ) (load_w : ℚ) :
    Except String (List ℚ) :=
  if can_supply s schedule hour load_w then
    Except.ok (schedule.set hour (schedule.getD hour 0 + load_w))
  else
    Except.error (s.name ++ " cannot supply load at hour " ++ toString hour)

/-- types.py, class FieldDaySite: the source and sink collections. -/
structure FieldDaySite : Type where
  sources : List PowerSource
  sinks : List PowerSink
deriving DecidableEq, Repr

/-- scheduler.py, `is_infinite` (local to generate_schedule):
`s.total_energy_wh == float("inf")`. -/
def is_infinite (s : PowerSource) : Bool :=
  match s.total_energy_wh with
  | Energy.inf => true
  | Energy.fin _ => false

/-- scheduler.py lines 54-63, body of the per-sink loop of
`compute_sink_loads_by_hour`: the base profile, optionally scaled by
the duty multiplier, which must have exactly `hours` entries. -/
def duty_scaled_sched (sink : PowerSink) (hours : ℕ)
    (station_duty : Option (List (String × List ℚ))) : Except String (List ℚ) :=
  let base := (List.range hours).map (fun h => sink.total_power_at_hour h)
  match station_duty with
  | none => Except.ok base
  | some sd =>
      match dlookup sd sink.name with
      | none => Except.ok base
      | some duty =>
          if duty.length = hours then
            Except.ok ((List.range hours).map (fun h => base.getD h 0 * duty.getD h 0))
          else
            Except.error ("Duty list for " ++ sink.name ++ " must have " ++
              toString hours ++ " elements")

/-- scheduler.py lines 65-66: `for h, w in enumerate(sched): total[h] += w`.
Both lists always have length `hours` at every call site. -/
def addSched (total sched : List ℚ) : List ℚ :=
  List.zipWith (fun a b => a + b) total sched

/-- scheduler.py lines 54-66, the loop of `compute_sink_loads_by_hour`,
accumulating the running total and the per-sink dict. -/
def compute_sink_loads_loop (hours : ℕ) (station_duty : Option (List (String × List ℚ)))
    (sinks : List PowerSink) (total : List ℚ) (per_sink : List (String × List ℚ)) :
    Except String (List ℚ × List (String × List ℚ)) :=
  match sinks with
  | [] => Except.ok (total, per_sink)
  | sink :: rest =>
      match duty_scaled_sched sink hours station_duty with
      | Except.error e => Except.error e
      | Except.ok sched =>
          compute_sink_loads_loop hours station_duty rest
            (addSched total sched) (dinsert per_sink sink.name sched)

/-- scheduler.py lines 42-67, `compute_sink_loads_by_hour`. -/
def compute_sink_loads_by_hour (sinks : List PowerSink) (hours : ℕ)
    (station_duty : Option (List (String × List ℚ))) :
    Except String (List ℚ × List (String × List ℚ)) :=
  compute_sink_loads_loop hours station_duty sinks (List.replicate hours 0) []

/-- The mutable state of one solve: each source object's in-place
`schedule` list (in site source order), the `remaining_wh` dict and the
`source_power_w` dict of `generate_schedule`. -/
structure AllocState : Type where
  schedules : List (List ℚ)
  remaining : List (String × Energy)
  source_power : List (String × List ℚ)
deriving DecidableEq, Repr

/-- scheduler.py lines 153-157: the headroom and energy bound of a
candidate source for hour `h`, combined into `available_w`
(`min(hourly_headroom_w, energy_limit_w)`, where an infinite
energy limit leaves the headroom unchanged). -/
def availW (h : ℕ) (i : ℕ) (s : PowerSource) (st : AllocState) : ℚ :=
  let sched := st.schedules.getD i []
  let hourly_headroom_w := max 0 (s.max_power_w - sched.getD h 0)
  match (dlookup st.remaining s.name).getD (Energy.fin 0) with
  | Energy.inf => hourly_headroom_w
  | Energy.fin r => min hourly_headroom_w r

/-- scheduler.py lines 165-166: decrement the remaining energy of the
named source by the committed power, floored at 0, unless it is the
infinite sentinel. -/
def drainRemaining (remaining : List (String × Energy)) (name : String) (assign_w : ℚ) :
    List (String × Energy) :=
  match (dlookup remaining name).getD (Energy.fin 0) with
  | Energy.inf => remaining
  | Energy.fin r => dupdate remaining name (fun _ => Energy.fin (max 0 (r - assign_w)))

/-- scheduler.py lines 151-167, the candidate-source loop for one sink
at hour `h`.  Candidates are (site index, source) pairs; the index
addresses the per-object schedule list.  Returns the updated state and
the demand still unserved. -/
def allocCands (h : ℕ) (cands : List (ℕ × PowerSource)) (remaining_demand : ℚ)
    (st : AllocState) : Except String (AllocState × ℚ) :=
  match cands with
  | [] => Except.ok (st, remaining_demand)
  | (i, s) :: rest =>
      if availW h i s st ≤ 0 ∨ remaining_demand ≤ 0 then
        allocCands h rest remaining_demand st
      else
        let assign_w := min remaining_demand (availW h i s st)
        match assign_load s (st.schedules.getD i []) h assign_w with
        | Except.error e => Except.error e
        | Except.ok sched2 =>
            allocCands h rest (remaining_demand - assign_w)
              ⟨st.schedules.set i sched2,
               drainRemaining st.remaining s.name assign_w,
               dupdate st.source_power s.name (fun v => v.set h (v.getD h 0 + assign_w))⟩

/-- scheduler.py lines 142-145, resolving the names of an explicit
assignment list against `sources_by_name`, in listed order; an unknown
name raises ValueError. -/
def resolveCands (sources_by_name : List (String × (ℕ × PowerSource)))
    (names : List String) : Except String (List (ℕ × PowerSource)) :=
  match names with
  | [] => Except.ok []
  | n :: rest =>
      match dlookup sources_by_name n with
      | none => Except.error ("Assignment references unknown source: " ++ n)
      | some p =>
          match resolveCands sources_by_name rest with
          | Except.error e => Except.error e
          | Except.ok ps => Except.ok (p :: ps)

/-- The read-only context of the allocation loops of
`generate_schedule`. -/
structure AllocCtx : Type where
  sources : List PowerSource
  per_sink_loads : List (String × List ℚ)
  assignments : Option (List (String × List String))
  sources_by_name : List (String × (ℕ × PowerSource))
  default_order : List (ℕ × PowerSource)
  sink_items : List (String × PowerSink)

/-- scheduler.py line 134, `demand_w`: this sink-name demand at hour
`h`, read from the per-sink loads dict. -/
def sinkDemand (ctx : AllocCtx) (h : ℕ) (sink_name : String) : ℚ :=
  ((dlookup ctx.per_sink_loads sink_name).getD []).getD h 0

/-- scheduler.py lines 138-147: determine the candidate source list for
one sink: the resolved explicit assignment when the sink name is a key
of the assignment map (a Python-falsy None / empty map never is),
otherwise the policy-derived default order. -/
def sinkCands (ctx : AllocCtx) (sink_name : String) :
    Except String (List (ℕ × PowerSource)) :=
  match ctx.assignments with
  | none => Except.ok ctx.default_order
  | some asg =>
      match dlookup asg sink_name with
      | none => Except.ok ctx.default_order
      | some candidate_names => resolveCands ctx.sources_by_name candidate_names

/-- scheduler.py lines 133-170, the per-sink loop inside hour `h`,
accumulating `unmet_this_hour`. -/
def allocSinks (ctx : AllocCtx) (h : ℕ) (items : List (String × PowerSink))
    (st : AllocState) (unmet_this_hour : ℚ) : Except String (AllocState × ℚ) :=
  match items with
  | [] => Except.ok (st, unmet_this_hour)
  | (sink_name, _) :: rest =>
      if sinkDemand ctx h sink_name ≤ 0 then
        allocSinks ctx h rest st unmet_this_hour
      else
        match sinkCands ctx sink_name with
        | Except.error e => Except.error e
        | Except.ok cands =>
            match allocCands h cands (sinkDemand ctx h sink_name) st with
            | Except.error e => Except.error e
            | Except.ok (st2, remaining_demand) =>
                allocSinks ctx h rest st2
                  (if 0 < remaining_demand then unmet_this_hour + remaining_demand
                   else unmet_this_hour)

/-- scheduler.py lines 175-177: append the post-hour remaining-energy
snapshot of every source (one append per source object). -/
def appendSnaps (sources : List PowerSource) (remaining : List (String × Energy))
    (snaps : List (String × List Energy)) : List (String × List Energy) :=
  match sources with
  | [] => snaps
  | s :: rest =>
      appendSnaps rest remaining
        (dupdate snaps s.name
          (fun l => l ++ [(dlookup remaining s.name).getD (Energy.fin 0)]))

/-- scheduler.py lines 129-177, the hour loop: allocate every sink for
the hour, store the unmet total, snapshot the remaining energies. -/
def allocHours (ctx : AllocCtx) (hs : List ℕ) (st : AllocState) (unmet : List ℚ)
    (snaps : List (String × List Energy)) :
    Except String (AllocState × List ℚ × List (String × List Energy)) :=
  match hs with
  | [] => Except.ok (st, unmet, snaps)
  | h :: rest =>
      match allocSinks ctx h ctx.sink_items st 0 with
      | Except.error e => Except.error e
      | Except.ok (st2, u) =>
          allocHours ctx rest st2 (unmet.set h u) (appendSnaps ctx.sources st2.remaining snaps)

/-- scheduler.py lines 106-114, the policy-derived default candidate
order, on (site index, source) pairs.  Python evaluates
`sorted(sources, key=is_infinite, reverse=...)`; a stable sort on a
boolean key is exactly a stable partition, written here directly as
filter-append. -/
def default_order_of (policy : String) (enum_sources : List (ℕ × PowerSource)) :
    List (ℕ × PowerSource) :=
  if policy = "battery_last" then
    enum_sources.filter (fun p => is_infinite p.2) ++
      enum_sources.filter (fun p => !(is_infinite p.2))
  else if policy = "battery_first" then
    enum_sources.filter (fun p => !(is_infinite p.2)) ++
      enum_sources.filter (fun p => is_infinite p.2)
  else enum_sources

/-- The value returned by `generate_schedule`, plus the final in-place
`PowerSource.schedule` lists (site source order), which Python exposes
as a side effect on the site. -/
structure ScheduleResult : Type where
  source_power_w : List (String × List ℚ)
  source_energy_remaining_wh : List (String × List Energy)
  unmet_load_w : List ℚ
  schedules : List (List ℚ)
deriving DecidableEq, Repr

/-- scheduler.py lines 70-73, `reset_source_schedules` (called at line
102): one fresh all-zero hourly schedule per source object. -/
def reset_source_schedules (sources : List PowerSource) (hours : ℕ) : List (List ℚ) :=
  sources.map (fun _ => List.replicate hours (0 : ℚ))

/-- scheduler.py line 117, `sources_by_name`, on enumerated sources so
the dict value keeps the object (site index) identity. -/
def sources_by_name_dict (sources : List PowerSource) : List (String × (ℕ × PowerSource)) :=
  sources.enum.foldl (fun d p => dinsert d p.2.name p) []

/-- scheduler.py line 118, `sinks_by_name`. -/
def sinks_by_name_dict (sinks : List PowerSink) : List (String × PowerSink) :=
  sinks.foldl (fun d sk => dinsert d sk.name sk) []

/-- scheduler.py lines 121-123, `remaining_wh`: the initial remaining
energy dict (`float("inf") if is_infinite(s) else float(s.total_energy_wh)`). -/
def init_remaining (sources : List PowerSource) : List (String × Energy) :=
  sources.foldl
    (fun d s => dinsert d s.name (if is_infinite s then Energy.inf else s.total_energy_wh)) []

/-- scheduler.py line 125, the initial `source_power_w` dict. -/
def init_source_power (sources : List PowerSource) (hours : ℕ) : List (String × List ℚ) :=
  sources.foldl (fun d s => dinsert d s.name (List.replicate hours (0 : ℚ))) []

/-- scheduler.py line 126, the initial `source_energy_remaining_wh`
dict holding the pre-hour-0 snapshot. -/
def init_snaps (sources : List PowerSource) : List (String × List Energy) :=
  sources.foldl
    (fun d s => dinsert d s.name [(dlookup (init_remaining sources) s.name).getD (Energy.fin 0)]) []

/-- scheduler.py lines 76-188, `generate_schedule`. -/
def generate_schedule (site : FieldDaySite) (hours : ℕ) (policy : String)
    (station_duty : Option (List (String × List ℚ)))
    (assignments : Option (List (String × List String))) :
    Except String ScheduleResult :=
  match compute_sink_loads_by_hour site.sinks hours station_duty with
  | Except.error e => Except.error e
  | Except.ok (_, per_sink_loads) =>
      match allocHours
          ⟨site.sources, per_sink_loads, assignments,
           sources_by_name_dict site.sources,
           default_order_of policy site.sources.enum,
           sinks_by_name_dict site.sinks⟩
          (List.range hours)
          ⟨reset_source_schedules site.sources hours, init_remaining site.sources,
           init_source_power site.sources hours⟩
          (List.replicate hours 0) (init_snaps site.sources) with
      | Except.error e => Except.error e
      | Except.ok (stF, unmetF, snapsF) =>
          -- lines 180-182: normalize snapshots to seq[1 : hours + 1]
          Except.ok ⟨stF.source_power,
            snapsF.map (fun p => (p.1, (p.2.drop 1).take hours)),
            unmetF, stF.schedules⟩

/-- Sum at hour `h` of the series of every entry of a name-keyed dict
of per-hour lists; with pairwise-distinct source names this is the sum
over all sources of `source_power_w[source][h]`. -/
def sumAt (d : List (String × List ℚ)) (h : ℕ) : ℚ :=
  (d.map (fun p => p.2.getD h 0)).sum

/-- One pure step of the candidate loop: skip when no capacity is
available or no demand remains, otherwise commit
`assign_w = min(remaining_demand, available_w)`.  `allocCands` is
proved equal to folding this step (the error branch of `assign_load`
is unreachable). -/
def candStep (h i : ℕ) (s : PowerSource) (rd : ℚ) (st : AllocState) : ℚ × AllocState :=
  if availW h i s st ≤ 0 ∨ rd ≤ 0 then (rd, st)
  else
    (rd - min rd (availW h i s st),
     ⟨st.schedules.set i ((st.schedules.getD i []).set h
         ((st.schedules.getD i []).getD h 0 + min rd (availW h i s st))),
      drainRemaining st.remaining s.name (min rd (availW h i s st)),
      dupdate st.source_power s.name
        (fun v => v.set h (v.getD h 0 + min rd (availW h i s st)))⟩)

/-- The pure run of the candidate loop over a whole candidate list. -/
def candRun (h : ℕ) (cands : List (ℕ × PowerSource)) (rd : ℚ) (st : AllocState) :
    ℚ × AllocState :=
  match cands with
  | [] => (rd, st)
  | (i, s) :: rest => candRun h rest (candStep h i s rd st).1 (candStep h i s rd st).2

/-- Every candidate pair is consistent with the site source list: the
index addresses exactly the listed source object.  This holds for the
default order and for every resolved assignment list. -/
def validCands (sources : List PowerSource) (cands : List (ℕ × PowerSource)) : Prop :=
  ∀ c ∈ cands, sources[c.1]? = some c.2

/-- How one remaining-energy dict entry can evolve across allocation
steps: an infinite sentinel stays infinite; a finite value can only
decrease, and a nonnegative value stays nonnegative (drains floor at
zero). -/
def EStep (e e2 : Energy) : Prop :=
  (e = Energy.inf ∧ e2 = Energy.inf) ∨
  (∃ r r2, e = Energy.fin r ∧ e2 = Energy.fin r2 ∧ r2 ≤ r ∧ (0 ≤ r → 0 ≤ r2))

/-- A list of successive snapshots reachable from a starting energy:
each entry steps (EStep) from the previous one. -/
inductive DescFrom : Energy → List Energy → Prop where
  | nil : ∀ e, DescFrom e []
  | cons : ∀ e e2 l, EStep e e2 → DescFrom e2 l → DescFrom e (e2 :: l)

/-- The structural invariant of the solve state, for a site whose
source names are pairwise distinct: schedule lists track the source
list, both dicts are keyed exactly by the source names, and every
per-hour list has length `hours`. -/
structure StInv (sources : List PowerSource) (hours : ℕ) (st : AllocState) : Prop where
  sched_len : st.schedules.length = sources.length
  sched_lens : ∀ l ∈ st.schedules, l.length = hours
  rem_keys : st.remaining.map Prod.fst = sources.map PowerSource.name
  pow_keys : st.source_power.map Prod.fst = sources.map PowerSource.name
  pow_lens : ∀ p ∈ st.source_power, p.2.length = hours

/-- The weak structural invariant of the solve state (no name facts):
enough to prove the per-object capacity bound even when source names
collide. -/
structure WInv (sources : List PowerSource) (hours : ℕ) (st : AllocState) : Prop where
  sched_len : st.schedules.length = sources.length
  sched_lens : ∀ l ∈ st.schedules, l.length = hours

instance instDecEqExcept {ε α : Type} [DecidableEq ε] [DecidableEq α] :
    DecidableEq (Except ε α) := fun x y =>
  match x, y with
  | Except.ok a, Except.ok b =>
      if h : a = b then Decidable.isTrue (by rw [h]) else Decidable.isFalse (by simp [h])
  | Except.error a, Except.error b =>
      if h : a = b then Decidable.isTrue (by rw [h]) else Decidable.isFalse (by simp [h])
  | Except.ok _, Except.error _ => Decidable.isFalse (by simp)
  | Except.error _, Except.ok _ => Decidable.isFalse (by simp)

/-! ### Concrete scenarios used by counterexamples and witnesses -/

/-- The example scenario of spec section 8: one finite source
(1000 W cap, 1000 Wh), one always-on 500 W sink, 24 hours. -/
def site_drain_demo : FieldDaySite :=
  ⟨[⟨"gen", 1000, 120, Energy.fin 1000⟩],
   [⟨"station", [LoadComponent.make "radio" 500 none]⟩]⟩

/-- The exact run of `generate_schedule` on `site_drain_demo`. -/
def res_drain_demo : ScheduleResult :=
  ⟨[("gen", [500, 500] ++ List.replicate 22 0)],
   [("gen", [Energy.fin 500] ++ List.replicate 23 (Energy.fin 0))],
   [0, 0] ++ List.replicate 22 500,
   [[500, 500] ++ List.replicate 22 0]⟩

/-- A site with one sink whose only component draws a negative power:
its demand is included in the aggregate total but skipped by the
allocation loop. -/
def site_negative_demand : FieldDaySite :=
  ⟨[⟨"a", 100, 12, Energy.inf⟩],
   [⟨"neg", [⟨"x", -100, List.replicate 24 1⟩]⟩]⟩

/-- The run of `generate_schedule` on `site_negative_demand`, one hour. -/
def res_negative_demand : ScheduleResult :=
  ⟨[("a", [0])], [("a", [Energy.inf])], [0], [[0]]⟩

/-- A site whose single sink has no components, hence zero demand at
every hour. -/
def site_bad_assignment : FieldDaySite :=
  ⟨[⟨"a", 100, 12, Energy.inf⟩], [⟨"s", []⟩]⟩

/-- The run of `generate_schedule` on `site_bad_assignment` with an
assignment naming the unknown source "bogus", one hour. -/
def res_bad_assignment : ScheduleResult :=
  ⟨[("a", [0])], [("a", [Energy.inf])], [0], [[0]]⟩

/-- A site whose single source has a negative hourly power cap. -/
def site_negative_cap : FieldDaySite :=
  ⟨[⟨"a", -5, 12, Energy.inf⟩], []⟩

/-- The run of `generate_schedule` on `site_negative_cap`, one hour. -/
def res_negative_cap : ScheduleResult :=
  ⟨[("a", [0])], [("a", [Energy.inf])], [0], [[0]]⟩

/-- A site whose single source has a negative finite energy budget. -/
def site_negative_energy : FieldDaySite :=
  ⟨[⟨"a", 100, 12, Energy.fin (-1)⟩], []⟩

/-- The run of `generate_schedule` on `site_negative_energy`, one hour. -/
def res_negative_energy : ScheduleResult :=
  ⟨[("a", [0])], [("a", [Energy.fin (-1)])], [0], [[0]]⟩

/-- A site with two sources sharing the name "a": the first infinite,
the second finite.  The name-keyed dicts of the scheduler merge them. -/
def site_dup_source_names : FieldDaySite :=
  ⟨[⟨"a", 100, 12, Energy.inf⟩, ⟨"a", 100, 12, Energy.fin 5⟩], []⟩

/-- The run of `generate_schedule` on `site_dup_source_names`, two
hours. -/
def res_dup_source_names : ScheduleResult :=
  ⟨[("a", [0, 0])], [("a", [Energy.fin 5, Energy.fin 5])], [0, 0], [[0, 0], [0, 0]]⟩

/-- A two-source list (one finite battery, one infinite generator)
used to instantiate the policy-ordering theorem. -/
def demo_sources : List PowerSource :=
  [⟨"batt", 600, 12, Energy.fin 1200⟩, ⟨"gen", 1000, 120, Energy.inf⟩]

/-- A site with one infinite source "a" and one sink "s" drawing a
constant 50 W: used to witness that an assignment naming an unknown
source for a sink with positive demand makes the solve fail. -/
def site_bad_assignment_pos : FieldDaySite :=
  ⟨[⟨"a", 100, 12, Energy.inf⟩], [⟨"s", [⟨"x", 50, List.replicate 24 1⟩]⟩]⟩

/-- A site with two finite sources both named "a" (5 Wh then 10 Wh,
both nonnegative) and one zero-demand sink: used to witness that the
name-keyed remaining dict merges the two sources, so the series
reported for the first source starts above its own budget. -/
def site_dup_finite : FieldDaySite :=
  ⟨[⟨"a", 100, 12, Energy.fin 5⟩, ⟨"a", 100, 12, Energy.fin 10⟩], [⟨"s", []⟩]⟩

/-- The result of the one-hour solve of `site_dup_finite`. -/
def res_dup_finite : ScheduleResult :=
  ⟨[("a", [0])], [("a", [Energy.fin 10])], [0], [[0], [0]]⟩

/-! ### Basic list helpers -/

theorem getD_set_eq {α : Type} (l : List α) (i : ℕ) (a d : α) (h : i < l.length) :
    (l.set i a).getD i d = a := by
  simp [List.getD_eq_getElem?_getD, List.getElem?_set_self h]

theorem getD_set_ne {α : Type} (l : List α) (i j : ℕ) (a d : α) (h : i ≠ j) :
    (l.set i a).getD j d = l.getD j d := by
  simp [List.getD_eq_getElem?_getD, List.getElem?_set_ne h]

theorem getD_replicate {α : Type} (n i : ℕ) (a d : α) (h : i < n) :
    (List.replicate n a).getD i d = a := by
  simp [List.getD_eq_getElem?_getD, List.getElem?_replicate, h]

theorem getD_append_left {α : Type} (l₁ l₂ : List α) (i : ℕ) (d : α) (h : i < l₁.length) :
    (l₁ ++ l₂).getD i d = l₁.getD i d := by
  simp [List.getD_eq_getElem?_getD, List.getElem?_append_left h]

/-! ### Dict lemmas -/

theorem dlookup_dinsert_self {α : Type} (d : List (String × α)) (k : String) (v : α) :
    dlookup (dinsert d k v) k = some v := by
  induction d with
  | nil => simp [dinsert, dlookup]
  | cons p rest ih =>
      by_cases h : p.1 = k
      · simp [dinsert, dlookup, h]
      · simp [dinsert, dlookup, h, ih]

theorem dlookup_dinsert_ne {α : Type} (d : List (String × α)) (k : String) (v : α)
    (k' : String) (h : k' ≠ k) : dlookup (dinsert d k v) k' = dlookup d k' := by
  induction d with
  | nil => simp [dinsert, dlookup, Ne.symm h]
  | cons p rest ih =>
      by_cases hp : p.1 = k
      · subst hp
        simp [dinsert, dlookup, Ne.symm h]
      · by_cases hp' : p.1 = k'
        · simp [dinsert, dlookup, hp, hp', h]
        · simp [dinsert, dlookup, hp, hp', ih]

theorem keys_dupdate {α : Type} (d : List (String × α)) (k : String) (f : α → α) :
    (dupdate d k f).map Prod.fst = d.map Prod.fst := by
  induction d with
  | nil => rfl
  | cons p rest ih =>
      by_cases h : p.1 = k
      · simp [dupdate, h]
      · simp [dupdate, h, ih]

theorem dlookup_dupdate_self {α : Type} (d : List (String × α)) (k : String) (f : α → α) :
    dlookup (dupdate d k f) k = (dlookup d k).map f := by
  induction d with
  | nil => rfl
  | cons p rest ih =>
      by_cases h : p.1 = k
      · simp [dupdate, dlookup, h]
      · simp [dupdate, dlookup, h, ih]

theorem dlookup_dupdate_ne {α : Type} (d : List (String × α)) (k : String) (f : α → α)
    (k' : String) (h : k' ≠ k) : dlookup (dupdate d k f) k' = dlookup d k' := by
  induction d with
  | nil => rfl
  | cons p rest ih =>
      by_cases hp : p.1 = k
      · subst hp
        simp [dupdate, dlookup, Ne.symm h]
      · by_cases hp' : p.1 = k'
        · simp [dupdate, dlookup, hp, hp', h]
        · simp [dupdate, dlookup, hp, hp', ih]

theorem dlookup_eq_none {α : Type} (d : List (String × α)) (k : String)
    (h : k ∉ d.map Prod.fst) : dlookup d k = none := by
  induction d with
  | nil => rfl
  | cons p rest ih =>
      simp only [List.map_cons, List.mem_cons] at h
      push_neg at h
      simp [dlookup, Ne.symm h.1, ih h.2]

theorem dlookup_mem_keys {α : Type} (d : List (String × α)) (k : String) (v : α)
    (h : dlookup d k = some v) : k ∈ d.map Prod.fst := by
  induction d with
  | nil => simp [dlookup] at h
  | cons p rest ih =>
      by_cases hp : p.1 = k
      · simp [hp]
      · simp only [dlookup, if_neg hp] at h
        simp [ih h]

theorem mem_of_dlookup {α : Type} (d : List (String × α)) (k : String) (v : α)
    (h : dlookup d k = some v) : (k, v) ∈ d := by
  induction d with
  | nil => simp [dlookup] at h
  | cons p rest ih =>
      obtain ⟨pk, pv⟩ := p
      by_cases hp : pk = k
      · subst hp
        simp only [dlookup, if_true, Option.some_inj] at h
        subst h
        exact List.mem_cons_self _ _
      · simp only [dlookup, if_neg hp] at h
        exact List.mem_cons_of_mem _ (ih h)

theorem dlookup_isSome_of_mem_keys {α : Type} (d : List (String × α)) (k : String)
    (h : k ∈ d.map Prod.fst) : ∃ v, dlookup d k = some v := by
  induction d with
  | nil => simp at h
  | cons p rest ih =>
      by_cases hp : p.1 = k
      · exact ⟨p.2, by simp [dlookup, hp]⟩
      · simp only [List.map_cons, List.mem_cons] at h
        rcases h with h | h
        · exact absurd h.symm hp
        · rcases ih h with ⟨v, hv⟩
          exact ⟨v, by simp [dlookup, hp, hv]⟩

theorem dinsert_fresh {α : Type} (d : List (String × α)) (k : String) (v : α)
    (h : k ∉ d.map Prod.fst) : dinsert d k v = d ++ [(k, v)] := by
  induction d with
  | nil => rfl
  | cons p rest ih =>
      simp only [List.map_cons, List.mem_cons] at h
      push_neg at h
      simp [dinsert, Ne.symm h.1, ih h.2]

theorem foldl_dinsert_fresh {α β : Type} (key : β → String) (val : β → α) (l : List β)
    (d : List (String × α)) (hn : (l.map key).Nodup)
    (hd : ∀ b ∈ l, key b ∉ d.map Prod.fst) :
    l.foldl (fun d b => dinsert d (key b) (val b)) d = d ++ l.map (fun b => (key b, val b)) := by
  induction l generalizing d with
  | nil => simp
  | cons b rest ih =>
      simp only [List.map_cons, List.nodup_cons] at hn
      rw [List.foldl_cons, dinsert_fresh d (key b) (val b) (hd b (List.mem_cons_self b rest))]
      rw [ih (d ++ [(key b, val b)]) hn.2]
      · simp
      · intro b' hb'
        simp only [List.map_append, List.mem_append, List.map_cons]
        rintro (hmem | hmem)
        · exact hd b' (List.mem_cons_of_mem _ hb') hmem
        · simp only [List.map_nil, List.mem_singleton] at hmem
          exact hn.1 (hmem ▸ List.mem_map_of_mem key hb')

/-! ### Claim C10 -/

/-- C10: a LoadComponent constructed without a duty_cycle argument (the
None default) behaves as always-on: the duty cycle defaults to 24
entries of 1.0, so power_at_hour h = power_w for every hour h in
0..23. -/
theorem default_duty_always_on (name : String) (power_w : ℚ) (h : ℕ) (hh : h < 24) :
    (LoadComponent.make name power_w none).power_at_hour h = power_w := by
  show power_w * (List.replicate 24 (1 : ℚ)).getD h 0 = power_w
  rw [getD_replicate 24 h 1 0 hh, mul_one]

/-- C10 witness: the theorem applied at a concrete component and
hour. -/
theorem default_duty_always_on_witness :
    (LoadComponent.make "radio" 500 none).power_at_hour 23 = 500 :=
  default_duty_always_on "radio" 500 23 (by decide)

/-! ### Claim C3 -/

theorem default_order_battery_last (e : List (ℕ × PowerSource)) :
    default_order_of "battery_last" e =
      e.filter (fun p => is_infinite p.2) ++ e.filter (fun p => !(is_infinite p.2)) := by
  unfold default_order_of
  rw [if_pos rfl]

theorem default_order_battery_first (e : List (ℕ × PowerSource)) :
    default_order_of "battery_first" e =
      e.filter (fun p => !(is_infinite p.2)) ++ e.filter (fun p => is_infinite p.2) := by
  unfold default_order_of
  rw [if_neg (by decide), if_pos rfl]

theorem default_order_other (policy : String) (e : List (ℕ × PowerSource))
    (h1 : policy ≠ "battery_last") (h2 : policy ≠ "battery_first") :
    default_order_of policy e = e := by
  unfold default_order_of
  rw [if_neg h1, if_neg h2]

/-- C3: the default candidate order of `generate_schedule` (as a
function of the policy string and the enumerated site sources): under
policy battery_last it is a permutation of the native order in which
every infinite-energy source comes before every finite-energy source
and each class keeps its native relative order (the filter equations);
under battery_first the finite class comes first; and under any other
policy string it is exactly the native order. -/
theorem policy_order (sources : List PowerSource) (policy : String) :
    (default_order_of policy sources.enum).Perm sources.enum ∧
    (policy = "battery_last" →
      List.Pairwise (fun a b : ℕ × PowerSource =>
        is_infinite b.2 = true → is_infinite a.2 = true)
        (default_order_of policy sources.enum) ∧
      (default_order_of policy sources.enum).filter (fun p => is_infinite p.2) =
        sources.enum.filter (fun p => is_infinite p.2) ∧
      (default_order_of policy sources.enum).filter (fun p => !(is_infinite p.2)) =
        sources.enum.filter (fun p => !(is_infinite p.2))) ∧
    (policy = "battery_first" →
      List.Pairwise (fun a b : ℕ × PowerSource =>
        is_infinite a.2 = true → is_infinite b.2 = true)
        (default_order_of policy sources.enum) ∧
      (default_order_of policy sources.enum).filter (fun p => is_infinite p.2) =
        sources.enum.filter (fun p => is_infinite p.2) ∧
      (default_order_of policy sources.enum).filter (fun p => !(is_infinite p.2)) =
        sources.enum.filter (fun p => !(is_infinite p.2))) ∧
    (policy ≠ "battery_last" → policy ≠ "battery_first" →
      default_order_of policy sources.enum = sources.enum) := by
  refine ⟨?_, ?_, ?_, ?_⟩
  · by_cases h1 : policy = "battery_last"
    · subst h1
      rw [default_order_battery_last]
      exact List.filter_append_perm _ _
    · by_cases h2 : policy = "battery_first"
      · subst h2
        rw [default_order_battery_first]
        have hc : (sources.enum.filter (fun p => is_infinite p.2)) =
            sources.enum.filter (fun p => !(!(is_infinite p.2))) := by
          apply List.filter_congr
          intro p _
          cases is_infinite p.2 <;> rfl
        rw [hc]
        exact List.filter_append_perm _ _
      · rw [default_order_other policy _ h1 h2]
  · intro h1
    subst h1
    rw [default_order_battery_last]
    refine ⟨?_, ?_, ?_⟩
    · rw [List.pairwise_append]
      refine ⟨?_, ?_, ?_⟩
      · refine List.pairwise_of_forall_mem_list (fun a ha b hb => fun _ => ?_)
        have h := List.of_mem_filter ha
        simpa using h
      · refine List.pairwise_of_forall_mem_list (fun a _ b hb => fun hbinf => ?_)
        have h := List.of_mem_filter hb
        simp [hbinf] at h
      · intro a ha b _
        intro
        have h := List.of_mem_filter ha
        simpa using h
    · rw [List.filter_append, List.filter_filter, List.filter_filter]
      have e1 : (List.filter (fun p : ℕ × PowerSource =>
          is_infinite p.2 && is_infinite p.2) sources.enum) =
          sources.enum.filter (fun p => is_infinite p.2) := by
        apply List.filter_congr
        intro p _
        cases is_infinite p.2 <;> rfl
      have e2 : (List.filter (fun p : ℕ × PowerSource =>
          is_infinite p.2 && !(is_infinite p.2)) sources.enum) = [] := by
        rw [List.filter_eq_nil_iff]
        intro p _
        cases is_infinite p.2 <;> simp
      rw [e1, e2, List.append_nil]
    · rw [List.filter_append, List.filter_filter, List.filter_filter]
      have e1 : (List.filter (fun p : ℕ × PowerSource =>
          !(is_infinite p.2) && is_infinite p.2) sources.enum) = [] := by
        rw [List.filter_eq_nil_iff]
        intro p _
        cases is_infinite p.2 <;> simp
      have e2 : (List.filter (fun p : ℕ × PowerSource =>
          !(is_infinite p.2) && !(is_infinite p.2)) sources.enum) =
          sources.enum.filter (fun p => !(is_infinite p.2)) := by
        apply List.filter_congr
        intro p _
        cases is_infinite p.2 <;> rfl
      rw [e1, e2, List.nil_append]
  · intro h2
    subst h2
    rw [default_order_battery_first]
    refine ⟨?_, ?_, ?_⟩
    · rw [List.pairwise_append]
      refine ⟨?_, ?_, ?_⟩
      · refine List.pairwise_of_forall_mem_list (fun a ha b hb => fun hainf => ?_)
        have h := List.of_mem_filter ha
        simp [hainf] at h
      · refine List.pairwise_of_forall_mem_list (fun a _ b hb => fun _ => ?_)
        have h := List.of_mem_filter hb
        simpa using h
      · intro a _ b hb
        intro
        have h := List.of_mem_filter hb
        simpa using h
    · rw [List.filter_append, List.filter_filter, List.filter_filter]
      have e1 : (List.filter (fun p : ℕ × PowerSource =>
          is_infinite p.2 && !(is_infinite p.2)) sources.enum) = [] := by
        rw [List.filter_eq_nil_iff]
        intro p _
        cases is_infinite p.2 <;> simp
      have e2 : (List.filter (fun p : ℕ × PowerSource =>
          is_infinite p.2 && is_infinite p.2) sources.enum) =
          sources.enum.filter (fun p => is_infinite p.2) := by
        apply List.filter_congr
        intro p _
        cases is_infinite p.2 <;> rfl
      rw [e1, e2, List.nil_append]
    · rw [List.filter_append, List.filter_filter, List.filter_filter]
      have e1 : (List.filter (fun p : ℕ × PowerSource =>
          !(is_infinite p.2) && !(is_infinite p.2)) sources.enum) =
          sources.enum.filter (fun p => !(is_infinite p.2)) := by
        apply List.filter_congr
        intro p _
        cases is_infinite p.2 <;> rfl
      have e2 : (List.filter (fun p : ℕ × PowerSource =>
          !(is_infinite p.2) && is_infinite p.2) sources.enum) = [] := by
        rw [List.filter_eq_nil_iff]
        intro p _
        cases is_infinite p.2 <;> simp
      rw [e1, e2, List.append_nil]
  · intro h1 h2
    exact default_order_other policy _ h1 h2

/-- C3 witness: the theorem applied to a concrete two-source list and
concrete policy strings. -/
theorem policy_order_witness :
    default_order_of "native" demo_sources.enum = demo_sources.enum ∧
    (default_order_of "battery_last" demo_sources.enum).Perm demo_sources.enum :=
  ⟨(policy_order demo_sources "native").2.2.2 (by decide) (by decide),
   (policy_order demo_sources "battery_last").1⟩

/-! ### Claim C6 -/

set_option maxRecDepth 10000 in
/-- C6: for one source with max_power_w 1000 and total_energy_wh 1000
and one sink with constant 500 W demand over 24 hours (no assignment
map, no duty map, default battery_last policy), generate_schedule
allocates 500 W in hours 0 and 1 (and nothing later), the remaining
energy series is 500 at the hour-0 snapshot and 0 from the hour-1
snapshot onward, and unmet_load_w is 0 at hours 0..1 and 500 at hours
2..23.  The right-hand literal spells out exactly those series. -/
theorem drain_example_run :
    generate_schedule site_drain_demo 24 "battery_last" none none =
      Except.ok res_drain_demo := by
  with_unfolding_all decide

/-! ### Claim C1 counterexample -/

/-- C1 counterexample: a site with pairwise-distinct source and sink
names and a sink of constant demand -100 W.  generate_schedule
succeeds, the duty-scaled total demand at hour 0 is -100, but every
source supplies 0 and the unmet load is 0, so the conservation sum
0 + 0 differs from the total -100: the claim as stated is false
without a non-negativity assumption on demand. -/
theorem conservation_counterexample :
    compute_sink_loads_by_hour site_negative_demand.sinks 1 none =
      Except.ok ([-100], [("neg", [-100])]) ∧
    generate_schedule site_negative_demand 1 "battery_last" none none =
      Except.ok res_negative_demand ∧
    sumAt res_negative_demand.source_power_w 0 +
        res_negative_demand.unmet_load_w.getD 0 0 ≠
      ([(-100 : ℚ)]).getD 0 0 := by
  refine ⟨by with_unfolding_all decide, by with_unfolding_all decide, by with_unfolding_all decide⟩

/-! ### Claim C2 counterexample -/

/-- C2 counterexample: a source with max_power_w = -5.  The solve
succeeds and never assigns to it, so its committed schedule stays 0,
and 0 is not at most -5: the capacity bound of the claim fails without
a non-negativity assumption on the caps. -/
theorem capacity_counterexample :
    site_negative_cap.sources.map PowerSource.max_power_w = [-5] ∧
    generate_schedule site_negative_cap 1 "battery_last" none none =
      Except.ok res_negative_cap ∧
    ¬ ((res_negative_cap.schedules.getD 0 []).getD 0 0 ≤ (-5 : ℚ)) := by
  refine ⟨by with_unfolding_all decide, by with_unfolding_all decide, by with_unfolding_all decide⟩

/-! ### Claim C4 counterexample -/

/-- C4 counterexample: the assignment map gives sink "s" of the site
the unknown source name "bogus", yet generate_schedule returns a
result: the unknown-name check sits behind the demand_w > 0 test, and
this sink has zero demand at every hour, so no ValidationError is ever
raised.  The claim as stated (failure for every such assignment map)
is false. -/
theorem unknown_source_counterexample :
    ("bogus" ∉ site_bad_assignment.sources.map PowerSource.name) ∧
    dlookup [("s", ["bogus"])] "s" = some ["bogus"] ∧
    generate_schedule site_bad_assignment 1 "battery_last" none
        (some [("s", ["bogus"])]) = Except.ok res_bad_assignment := by
  refine ⟨by with_unfolding_all decide, by with_unfolding_all decide, by with_unfolding_all decide⟩

/-! ### Claim C5 counterexample -/

/-- C5 counterexample, in two parts, one per added proviso.  First, a
finite source with total_energy_wh = -1: the solve succeeds and its
remaining-energy series is the constant -1, which is negative, so the
"never negative" part of the claim fails without a non-negativity
assumption on the energy budget.  Second, two finite sources both
named "a" with the nonnegative budgets 5 Wh then 10 Wh: the
name-keyed remaining dict keeps the later value, the solve succeeds,
and the series reported for the first source (budget 5) is the
constant 10, whose first entry 10 exceeds that source's
total_energy_wh = 5, so the "first entry at most total_energy_wh"
part of the claim also fails, even with nonnegative budgets, without
a pairwise-distinct-source-names assumption. -/
theorem energy_monotone_counterexample :
    (site_negative_energy.sources.map PowerSource.total_energy_wh =
        [Energy.fin (-1)] ∧
      generate_schedule site_negative_energy 1 "battery_last" none none =
        Except.ok res_negative_energy ∧
      dlookup res_negative_energy.source_energy_remaining_wh "a" =
        some [Energy.fin (-1)] ∧
      ¬ ((0 : ℚ) ≤ -1)) ∧
    (site_dup_finite.sources.map PowerSource.name = ["a", "a"] ∧
      site_dup_finite.sources.map PowerSource.total_energy_wh =
        [Energy.fin 5, Energy.fin 10] ∧
      generate_schedule site_dup_finite 1 "battery_last" none none =
        Except.ok res_dup_finite ∧
      dlookup res_dup_finite.source_energy_remaining_wh "a" =
        some [Energy.fin 10] ∧
      ¬ ((10 : ℚ) ≤ 5)) := by
  refine ⟨⟨by with_unfolding_all decide, by with_unfolding_all decide, by with_unfolding_all decide, by with_unfolding_all decide⟩, by with_unfolding_all decide, by with_unfolding_all decide, by with_unfolding_all decide, by with_unfolding_all decide, by with_unfolding_all decide⟩

/-! ### Claim C7 counterexample -/

/-- C7 counterexample: two sources share the name "a", the first with
the infinite sentinel, the second finite with 5 Wh.  The name-keyed
remaining dict keeps the later, finite value, so the series reported
for the infinite source is the constant fin 5, not the inf sentinel:
the claim as stated is false for duplicate source names. -/
theorem infinite_invariance_counterexample :
    site_dup_source_names.sources.map PowerSource.total_energy_wh =
      [Energy.inf, Energy.fin 5] ∧
    generate_schedule site_dup_source_names 2 "battery_last" none none =
      Except.ok res_dup_source_names ∧
    dlookup res_dup_source_names.source_energy_remaining_wh "a" =
      some [Energy.fin 5, Energy.fin 5] ∧
    Energy.fin 5 ≠ Energy.inf := by
  refine ⟨by with_unfolding_all decide, by with_unfolding_all decide, by with_unfolding_all decide, by with_unfolding_all decide⟩

/-! ### The candidate loop never raises: allocCands as a pure fold -/

theorem availW_le_headroom (h i : ℕ) (s : PowerSource) (st : AllocState) :
    availW h i s st ≤ max 0 (s.max_power_w - (st.schedules.getD i []).getD h 0) := by
  rcases e : (dlookup st.remaining s.name).getD (Energy.fin 0) with _ | r
  · simp only [availW]
    rw [e]
  · simp only [availW]
    rw [e]
    exact min_le_left _ _

theorem can_supply_of_avail_pos (h i : ℕ) (s : PowerSource) (st : AllocState) (rd : ℚ)
    (h1 : 0 < availW h i s st) (h2 : 0 < rd) :
    can_supply s (st.schedules.getD i []) h (min rd (availW h i s st)) = true := by
  have hle := availW_le_headroom h i s st
  have hpos : 0 < max 0 (s.max_power_w - (st.schedules.getD i []).getD h 0) :=
    lt_of_lt_of_le h1 hle
  have hmax : max 0 (s.max_power_w - (st.schedules.getD i []).getD h 0) =
      s.max_power_w - (st.schedules.getD i []).getD h 0 := by
    rcases le_or_lt (s.max_power_w - (st.schedules.getD i []).getD h 0) 0 with hh | hh
    · rw [max_eq_left hh] at hpos
      exact absurd hpos (lt_irrefl 0)
    · exact max_eq_right (le_of_lt hh)
  have hb : min rd (availW h i s st) ≤
      s.max_power_w - (st.schedules.getD i []).getD h 0 := by
    calc min rd (availW h i s st) ≤ availW h i s st := min_le_right _ _
    _ ≤ _ := hle
    _ = _ := hmax
  unfold can_supply
  exact decide_eq_true (by linarith)

theorem allocCands_eq (h : ℕ) (cands : List (ℕ × PowerSource)) (rd : ℚ) (st : AllocState) :
    allocCands h cands rd st =
      Except.ok ((candRun h cands rd st).2, (candRun h cands rd st).1) := by
  induction cands generalizing rd st with
  | nil => rfl
  | cons c rest ih =>
      obtain ⟨i, s⟩ := c
      by_cases hc : availW h i s st ≤ 0 ∨ rd ≤ 0
      · have hstep : candStep h i s rd st = (rd, st) := by
          unfold candStep
          rw [if_pos hc]
        simp only [allocCands]
        rw [if_pos hc]
        simp only [candRun, hstep]
        exact ih rd st
      · have hc2 := hc
        push_neg at hc2
        have hcs := can_supply_of_avail_pos h i s st rd hc2.1 hc2.2
        have hstep : candStep h i s rd st =
            (rd - min rd (availW h i s st),
             ⟨st.schedules.set i ((st.schedules.getD i []).set h
                 ((st.schedules.getD i []).getD h 0 + min rd (availW h i s st))),
              drainRemaining st.remaining s.name (min rd (availW h i s st)),
              dupdate st.source_power s.name
                (fun v => v.set h (v.getD h 0 + min rd (availW h i s st)))⟩) := by
          unfold candStep
          rw [if_neg hc]
        simp only [allocCands]
        rw [if_neg hc]
        unfold assign_load
        rw [if_pos hcs]
        simp only [candRun, hstep]
        exact ih _ _

/-! ### Dict sum and update-entry lemmas -/

theorem dlookup_cons_self {α : Type} (k : String) (v : α) (d : List (String × α)) :
    dlookup ((k, v) :: d) k = some v := by
  unfold dlookup
  rw [if_pos rfl]

theorem dlookup_cons_ne {α : Type} (k k2 : String) (v : α) (d : List (String × α))
    (h : k ≠ k2) : dlookup ((k, v) :: d) k2 = dlookup d k2 := by
  unfold dlookup
  rw [if_neg h]
  cases d <;> rfl

theorem dupdate_cons_self {α : Type} (k : String) (v : α) (d : List (String × α))
    (f : α → α) : dupdate ((k, v) :: d) k f = (k, f v) :: d := by
  unfold dupdate
  rw [if_pos rfl]

theorem dupdate_cons_ne {α : Type} (k k2 : String) (v : α) (d : List (String × α))
    (f : α → α) (h : k ≠ k2) : dupdate ((k, v) :: d) k2 f = (k, v) :: dupdate d k2 f := by
  unfold dupdate
  rw [if_neg h]
  cases d <;> rfl

theorem sumAt_cons (p : String × List ℚ) (d : List (String × List ℚ)) (h : ℕ) :
    sumAt (p :: d) h = p.2.getD h 0 + sumAt d h := rfl

theorem sumAt_dupdate_set (d : List (String × List ℚ)) (k : String) (v : List ℚ)
    (h : ℕ) (a : ℚ) (hlook : dlookup d k = some v) (hh : h < v.length) :
    sumAt (dupdate d k (fun w => w.set h (w.getD h 0 + a))) h = sumAt d h + a := by
  induction d with
  | nil => simp [dlookup] at hlook
  | cons p rest ih =>
      obtain ⟨pk, pv⟩ := p
      by_cases hp : pk = k
      · subst hp
        rw [dlookup_cons_self] at hlook
        have hv := Option.some_inj.mp hlook
        subst hv
        rw [dupdate_cons_self, sumAt_cons, sumAt_cons]
        simp only
        rw [getD_set_eq _ _ _ _ hh]
        ring
      · rw [dlookup_cons_ne _ _ _ _ hp] at hlook
        rw [dupdate_cons_ne _ _ _ _ _ hp, sumAt_cons, sumAt_cons, ih hlook]
        ring

theorem sumAt_dupdate_ne (d : List (String × List ℚ)) (k : String) (h h2 : ℕ) (a : ℚ)
    (hne : h2 ≠ h) :
    sumAt (dupdate d k (fun w => w.set h (w.getD h 0 + a))) h2 = sumAt d h2 := by
  induction d with
  | nil => rfl
  | cons p rest ih =>
      obtain ⟨pk, pv⟩ := p
      by_cases hp : pk = k
      · subst hp
        rw [dupdate_cons_self, sumAt_cons, sumAt_cons]
        simp only
        rw [getD_set_ne _ _ _ _ _ (Ne.symm hne)]
      · rw [dupdate_cons_ne _ _ _ _ _ hp, sumAt_cons, sumAt_cons, ih]

theorem dupdate_entries {α : Type} (d : List (String × α)) (k : String) (f : α → α)
    (p : String × α) (hp : p ∈ dupdate d k f) :
    p ∈ d ∨ ∃ v, (p.1, v) ∈ d ∧ p.2 = f v := by
  induction d with
  | nil => simp [dupdate] at hp
  | cons q rest ih =>
      by_cases hq : q.1 = k
      · simp only [dupdate, if_pos hq, List.mem_cons] at hp
        rcases hp with hp | hp
        · right
          refine ⟨q.2, ?_, ?_⟩
          · rw [hp]
            exact List.mem_cons_self _ _
          · rw [hp]
        · left
          exact List.mem_cons_of_mem _ hp
      · simp only [dupdate, if_neg hq, List.mem_cons] at hp
        rcases hp with hp | hp
        · left
          rw [hp]
          exact List.mem_cons_self _ _
        · rcases ih hp with hh | ⟨v, hv1, hv2⟩
          · exact Or.inl (List.mem_cons_of_mem _ hh)
          · exact Or.inr ⟨v, List.mem_cons_of_mem _ hv1, hv2⟩

theorem EStep_refl (e : Energy) : EStep e e := by
  cases e with
  | inf => exact Or.inl ⟨rfl, rfl⟩
  | fin r => exact Or.inr ⟨r, r, rfl, rfl, le_refl r, fun h => h⟩

theorem EStep_trans (a b c : Energy) (h1 : EStep a b) (h2 : EStep b c) : EStep a c := by
  rcases h1 with ⟨ha, hb⟩ | ⟨r, r2, ha, hb, hle, hnn⟩
  · rcases h2 with ⟨hb2, hc⟩ | ⟨q, q2, hb2, hc, hle2, hnn2⟩
    · exact Or.inl ⟨ha, hc⟩
    · rw [hb] at hb2
      exact absurd hb2 (by simp)
  · rcases h2 with ⟨hb2, hc⟩ | ⟨q, q2, hb2, hc, hle2, hnn2⟩
    · rw [hb] at hb2
      exact absurd hb2 (by simp)
    · rw [hb] at hb2
      have hq := (Energy.fin.injEq _ _).mp hb2
      subst hq
      exact Or.inr ⟨r, q2, ha, hc, le_trans hle2 hle, fun hr => hnn2 (hnn hr)⟩

theorem drainRemaining_none (remaining : List (String × Energy)) (name : String)
    (aw : ℚ) (nm : String) (hnone : dlookup remaining nm = none) :
    dlookup (drainRemaining remaining name aw) nm = none := by
  unfold drainRemaining
  rcases e : (dlookup remaining name).getD (Energy.fin 0) with _ | r
  · exact hnone
  · by_cases hnm : nm = name
    · subst hnm
      rw [dlookup_dupdate_self, hnone]
      rfl
    · rw [dlookup_dupdate_ne _ _ _ _ hnm]
      exact hnone

theorem drainRemaining_some (remaining : List (String × Energy)) (name : String)
    (aw : ℚ) (haw : 0 ≤ aw)
    (hbound : ∀ r, (dlookup remaining name).getD (Energy.fin 0) = Energy.fin r → aw ≤ r)
    (nm : String) (e : Energy) (hsome : dlookup remaining nm = some e) :
    ∃ e2, dlookup (drainRemaining remaining name aw) nm = some e2 ∧ EStep e e2 := by
  unfold drainRemaining
  rcases el : (dlookup remaining name).getD (Energy.fin 0) with _ | r
  · exact ⟨e, hsome, EStep_refl e⟩
  · have har := hbound r el
    by_cases hnm : nm = name
    · subst hnm
      rw [hsome] at el
      simp only [Option.getD_some] at el
      subst el
      refine ⟨Energy.fin (max 0 (r - aw)), ?_, ?_⟩
      · rw [dlookup_dupdate_self, hsome]
        rfl
      · refine Or.inr ⟨r, max 0 (r - aw), rfl, rfl, ?_, fun _ => le_max_left 0 _⟩
        have h1 : 0 ≤ r - aw := by linarith
        rw [max_eq_right h1]
        linarith
    · refine ⟨e, ?_, EStep_refl e⟩
      rw [dlookup_dupdate_ne _ _ _ _ hnm]
      exact hsome

/-! ### One-step lemmas for the candidate loop -/

theorem candStep_cases (h i : ℕ) (s : PowerSource) (rd : ℚ) (st : AllocState) :
    candStep h i s rd st = (rd, st) ∨
    (0 < availW h i s st ∧ 0 < rd ∧
     candStep h i s rd st = (rd - min rd (availW h i s st),
       ⟨st.schedules.set i ((st.schedules.getD i []).set h
           ((st.schedules.getD i []).getD h 0 + min rd (availW h i s st))),
        drainRemaining st.remaining s.name (min rd (availW h i s st)),
        dupdate st.source_power s.name
          (fun v => v.set h (v.getD h 0 + min rd (availW h i s st)))⟩)) := by
  by_cases hc : availW h i s st ≤ 0 ∨ rd ≤ 0
  · left
    unfold candStep
    rw [if_pos hc]
  · have hc2 := hc
    push_neg at hc2
    right
    refine ⟨hc2.1, hc2.2, ?_⟩
    unfold candStep
    rw [if_neg hc]

theorem getD_mem_of_lt {α : Type} (l : List α) (i : ℕ) (d : α) (h : i < l.length) :
    l.getD i d ∈ l := by
  rw [List.getD_eq_getElem?_getD, List.getElem?_eq_getElem h]
  exact List.getElem_mem h

theorem lt_length_of_getElem? {α : Type} (l : List α) (i : ℕ) (a : α)
    (h : l[i]? = some a) : i < l.length := by
  by_contra hcon
  push_neg at hcon
  rw [List.getElem?_eq_none hcon] at h
  exact Option.noConfusion h

theorem getElem?_getD {α : Type} (l : List α) (i : ℕ) (a d : α)
    (h : l[i]? = some a) : l.getD i d = a := by
  rw [List.getD_eq_getElem?_getD, h]
  rfl

theorem drainRemaining_keys (remaining : List (String × Energy)) (name : String)
    (aw : ℚ) : (drainRemaining remaining name aw).map Prod.fst = remaining.map Prod.fst := by
  unfold drainRemaining
  rcases e : (dlookup remaining name).getD (Energy.fin 0) with _ | r
  · rfl
  · exact keys_dupdate _ _ _

theorem candStep_inv (sources : List PowerSource) (hours : ℕ) (h i : ℕ)
    (s : PowerSource) (rd : ℚ) (st : AllocState) (hval : sources[i]? = some s)
    (hh : h < hours) (hinv : StInv sources hours st) :
    StInv sources hours (candStep h i s rd st).2 := by
  rcases candStep_cases h i s rd st with hc | ⟨ha, hrd, hc⟩
  · rw [hc]
    exact hinv
  · rw [hc]
    have hi : i < st.schedules.length := by
      rw [hinv.sched_len]
      exact lt_length_of_getElem? sources i s hval
    refine ⟨?_, ?_, ?_, ?_, ?_⟩
    · rw [List.length_set, hinv.sched_len]
    · intro l hl
      rcases List.mem_or_eq_of_mem_set hl with hl2 | hl2
      · exact hinv.sched_lens l hl2
      · rw [hl2, List.length_set]
        exact hinv.sched_lens _ (getD_mem_of_lt _ _ _ hi)
    · rw [drainRemaining_keys]
      exact hinv.rem_keys
    · rw [keys_dupdate]
      exact hinv.pow_keys
    · intro p hp
      rcases dupdate_entries _ _ _ p hp with hp2 | ⟨v, hv1, hv2⟩
      · exact hinv.pow_lens p hp2
      · rw [hv2, List.length_set]
        exact hinv.pow_lens (p.1, v) hv1

theorem candStep_rd (h i : ℕ) (s : PowerSource) (rd : ℚ) (st : AllocState) :
    (candStep h i s rd st).1 ≤ rd ∧ (0 ≤ rd → 0 ≤ (candStep h i s rd st).1) := by
  rcases candStep_cases h i s rd st with hc | ⟨ha, hrd, hc⟩
  · rw [hc]
    exact ⟨le_refl rd, fun hr => hr⟩
  · rw [hc]
    constructor
    · have : 0 ≤ min rd (availW h i s st) := le_min (le_of_lt hrd) (le_of_lt ha)
      simp only
      linarith
    · intro _
      have : min rd (availW h i s st) ≤ rd := min_le_left _ _
      simp only
      linarith

theorem candStep_sum (sources : List PowerSource) (hours : ℕ) (h i : ℕ)
    (s : PowerSource) (rd : ℚ) (st : AllocState) (hval : sources[i]? = some s)
    (hh : h < hours) (hinv : StInv sources hours st) :
    sumAt (candStep h i s rd st).2.source_power h =
      sumAt st.source_power h + (rd - (candStep h i s rd st).1) := by
  rcases candStep_cases h i s rd st with hc | ⟨ha, hrd, hc⟩
  · rw [hc]
    ring_nf
  · have hmem : s.name ∈ st.source_power.map Prod.fst := by
      rw [hinv.pow_keys]
      exact List.mem_map_of_mem PowerSource.name
        (by
          have := lt_length_of_getElem? sources i s hval
          have h2 : sources[i] = s := by
            have h3 := List.getElem?_eq_getElem this
            rw [hval] at h3
            exact (Option.some_inj.mp h3).symm
          rw [← h2]
          exact List.getElem_mem this)
    rcases dlookup_isSome_of_mem_keys _ _ hmem with ⟨v, hv⟩
    have hvl : v.length = hours := hinv.pow_lens (s.name, v) (mem_of_dlookup _ _ _ hv)
    rw [hc]
    simp only
    rw [sumAt_dupdate_set _ _ v h _ hv (by rw [hvl]; exact hh)]
    ring_nf

theorem candStep_sum_ne (h i : ℕ) (s : PowerSource) (rd : ℚ) (st : AllocState)
    (h2 : ℕ) (hne : h2 ≠ h) :
    sumAt (candStep h i s rd st).2.source_power h2 = sumAt st.source_power h2 := by
  rcases candStep_cases h i s rd st with hc | ⟨ha, hrd, hc⟩
  · rw [hc]
  · rw [hc]
    simp only
    exact sumAt_dupdate_ne _ _ _ _ _ hne

theorem candStep_rem_none (h i : ℕ) (s : PowerSource) (rd : ℚ) (st : AllocState)
    (nm : String) (hnone : dlookup st.remaining nm = none) :
    dlookup (candStep h i s rd st).2.remaining nm = none := by
  rcases candStep_cases h i s rd st with hc | ⟨ha, hrd, hc⟩
  · rw [hc]
    exact hnone
  · rw [hc]
    exact drainRemaining_none _ _ _ _ hnone

theorem candStep_rem_some (h i : ℕ) (s : PowerSource) (rd : ℚ) (st : AllocState)
    (nm : String) (e : Energy) (hsome : dlookup st.remaining nm = some e) :
    ∃ e2, dlookup (candStep h i s rd st).2.remaining nm = some e2 ∧ EStep e e2 := by
  rcases candStep_cases h i s rd st with hc | ⟨ha, hrd, hc⟩
  · rw [hc]
    exact ⟨e, hsome, EStep_refl e⟩
  · rw [hc]
    refine drainRemaining_some _ _ _ (le_min (le_of_lt hrd) (le_of_lt ha)) ?_ nm e hsome
    intro r hr
    have havail : availW h i s st =
        min (max 0 (s.max_power_w - (st.schedules.getD i []).getD h 0)) r := by
      simp only [availW]
      rw [hr]
    calc min rd (availW h i s st) ≤ availW h i s st := min_le_right _ _
    _ ≤ r := by
        rw [havail]
        exact min_le_right _ _

theorem getElem_of_getElem? {α : Type} (l : List α) (i : ℕ) (a : α)
    (h : l[i]? = some a) (hl : i < l.length) : l[i] = a := by
  have h3 := List.getElem?_eq_getElem hl
  rw [h] at h3
  exact (Option.some_inj.mp h3).symm

theorem nodup_names_ne (sources : List PowerSource) (i j : ℕ) (s s2 : PowerSource)
    (hn : (sources.map PowerSource.name).Nodup)
    (hi : sources[i]? = some s) (hj : sources[j]? = some s2) (hij : i ≠ j) :
    s.name ≠ s2.name := by
  intro heq
  have hil := lt_length_of_getElem? sources i s hi
  have hjl := lt_length_of_getElem? sources j s2 hj
  have hgi : sources[i] = s := getElem_of_getElem? sources i s hi hil
  have hgj : sources[j] = s2 := getElem_of_getElem? sources j s2 hj hjl
  have hp := List.pairwise_iff_getElem.mp hn
  have hil2 : i < (sources.map PowerSource.name).length := by simpa using hil
  have hjl2 : j < (sources.map PowerSource.name).length := by simpa using hjl
  rcases lt_or_gt_of_ne hij with hlt | hlt
  · exact hp i j hil2 hjl2 hlt (by simp [hgi, hgj, heq])
  · exact hp j i hjl2 hil2 hlt (by simp [hgi, hgj, heq])

theorem candStep_sync (sources : List PowerSource) (hours h i : ℕ) (s : PowerSource)
    (rd : ℚ) (st : AllocState)
    (hn : (sources.map PowerSource.name).Nodup)
    (hval : sources[i]? = some s)
    (hinv : StInv sources hours st)
    (hsync : ∀ j s2, sources[j]? = some s2 →
      dlookup st.source_power s2.name = some (st.schedules.getD j [])) :
    ∀ j s2, sources[j]? = some s2 →
      dlookup (candStep h i s rd st).2.source_power s2.name =
        some ((candStep h i s rd st).2.schedules.getD j []) := by
  rcases candStep_cases h i s rd st with hc | ⟨ha, hrd, hc⟩
  · rw [hc]
    exact hsync
  · rw [hc]
    intro j s2 hj
    simp only
    by_cases hij : i = j
    · subst hij
      have hs2 : s2 = s := by
        rw [hval] at hj
        exact (Option.some_inj.mp hj).symm
      subst hs2
      have hi2 : i < st.schedules.length := by
        rw [hinv.sched_len]
        exact lt_length_of_getElem? sources i s2 hval
      rw [dlookup_dupdate_self, hsync i s2 hval, getD_set_eq _ _ _ _ hi2]
      rfl
    · have hs2ne : s2.name ≠ s.name :=
        Ne.symm (nodup_names_ne sources i j s s2 hn hval hj hij)
      rw [dlookup_dupdate_ne _ _ _ _ hs2ne, getD_set_ne _ _ _ _ _ hij]
      exact hsync j s2 hj

theorem candStep_winv (sources : List PowerSource) (hours : ℕ) (h i : ℕ)
    (s : PowerSource) (rd : ℚ) (st : AllocState) (hval : sources[i]? = some s)
    (hinv : WInv sources hours st) : WInv sources hours (candStep h i s rd st).2 := by
  rcases candStep_cases h i s rd st with hc | ⟨ha, hrd, hc⟩
  · rw [hc]
    exact hinv
  · rw [hc]
    have hi : i < st.schedules.length := by
      rw [hinv.sched_len]
      exact lt_length_of_getElem? sources i s hval
    refine ⟨?_, ?_⟩
    · rw [List.length_set, hinv.sched_len]
    · intro l hl
      rcases List.mem_or_eq_of_mem_set hl with hl2 | hl2
      · exact hinv.sched_lens l hl2
      · rw [hl2, List.length_set]
        exact hinv.sched_lens _ (getD_mem_of_lt _ _ _ hi)

theorem candStep_cap (sources : List PowerSource) (hours h i : ℕ) (s : PowerSource)
    (rd : ℚ) (st : AllocState) (hval : sources[i]? = some s) (hh : h < hours)
    (hinv : WInv sources hours st)
    (hcap : ∀ j s2, sources[j]? = some s2 → ∀ h2,
      (st.schedules.getD j []).getD h2 0 ≤ s2.max_power_w) :
    ∀ j s2, sources[j]? = some s2 → ∀ h2,
      ((candStep h i s rd st).2.schedules.getD j []).getD h2 0 ≤ s2.max_power_w := by
  rcases candStep_cases h i s rd st with hc | ⟨ha, hrd, hc⟩
  · rw [hc]
    exact hcap
  · rw [hc]
    intro j s2 hj h2
    simp only
    by_cases hij : i = j
    · subst hij
      have hs2 : s2 = s := by
        rw [hval] at hj
        exact (Option.some_inj.mp hj).symm
      subst hs2
      have hi2 : i < st.schedules.length := by
        rw [hinv.sched_len]
        exact lt_length_of_getElem? sources i s2 hval
      rw [getD_set_eq _ _ _ _ hi2]
      by_cases hhh : h2 = h
      · subst hhh
        rw [getD_set_eq _ _ _ _ (by
          rw [hinv.sched_lens _ (getD_mem_of_lt _ _ _ hi2)]
          exact hh)]
        exact of_decide_eq_true (can_supply_of_avail_pos h2 i s2 st rd ha hrd)
      · rw [getD_set_ne _ _ _ _ _ (Ne.symm hhh)]
        exact hcap i s2 hval h2
    · rw [getD_set_ne _ _ _ _ _ hij]
      exact hcap j s2 hj h2

/-! ### Whole-candidate-list lemmas -/

theorem validCands_cons (sources : List PowerSource) (c : ℕ × PowerSource)
    (rest : List (ℕ × PowerSource)) (hv : validCands sources (c :: rest)) :
    sources[c.1]? = some c.2 ∧ validCands sources rest :=
  ⟨hv c (List.mem_cons_self c rest), fun c2 hc2 => hv c2 (List.mem_cons_of_mem c hc2)⟩

theorem candRun_winv (sources : List PowerSource) (hours h : ℕ)
    (cands : List (ℕ × PowerSource)) (rd : ℚ) (st : AllocState)
    (hv : validCands sources cands) (hinv : WInv sources hours st) :
    WInv sources hours (candRun h cands rd st).2 := by
  induction cands generalizing rd st with
  | nil => exact hinv
  | cons c rest ih =>
      obtain ⟨i, s⟩ := c
      rcases validCands_cons sources _ _ hv with ⟨hc, hrest⟩
      exact ih _ _ hrest (candStep_winv sources hours h i s rd st hc hinv)

theorem candRun_inv (sources : List PowerSource) (hours h : ℕ)
    (cands : List (ℕ × PowerSource)) (rd : ℚ) (st : AllocState)
    (hv : validCands sources cands) (hh : h < hours) (hinv : StInv sources hours st) :
    StInv sources hours (candRun h cands rd st).2 := by
  induction cands generalizing rd st with
  | nil => exact hinv
  | cons c rest ih =>
      obtain ⟨i, s⟩ := c
      rcases validCands_cons sources _ _ hv with ⟨hc, hrest⟩
      exact ih _ _ hrest (candStep_inv sources hours h i s rd st hc hh hinv)

theorem candRun_rd (h : ℕ) (cands : List (ℕ × PowerSource)) (rd : ℚ) (st : AllocState) :
    (candRun h cands rd st).1 ≤ rd ∧ (0 ≤ rd → 0 ≤ (candRun h cands rd st).1) := by
  induction cands generalizing rd st with
  | nil => exact ⟨le_refl rd, fun hr => hr⟩
  | cons c rest ih =>
      obtain ⟨i, s⟩ := c
      rcases candStep_rd h i s rd st with ⟨h1, h2⟩
      rcases ih (candStep h i s rd st).1 (candStep h i s rd st).2 with ⟨h3, h4⟩
      exact ⟨le_trans h3 h1, fun hr => h4 (h2 hr)⟩

theorem candRun_sum (sources : List PowerSource) (hours h : ℕ)
    (cands : List (ℕ × PowerSource)) (rd : ℚ) (st : AllocState)
    (hv : validCands sources cands) (hh : h < hours) (hinv : StInv sources hours st) :
    sumAt (candRun h cands rd st).2.source_power h =
      sumAt st.source_power h + (rd - (candRun h cands rd st).1) := by
  induction cands generalizing rd st with
  | nil =>
      simp only [candRun]
      ring_nf
  | cons c rest ih =>
      obtain ⟨i, s⟩ := c
      rcases validCands_cons sources _ _ hv with ⟨hc, hrest⟩
      have hstep := candStep_sum sources hours h i s rd st hc hh hinv
      have hinv2 := candStep_inv sources hours h i s rd st hc hh hinv
      have hrec := ih (candStep h i s rd st).1 (candStep h i s rd st).2 hrest hinv2
      simp only [candRun]
      rw [hrec, hstep]
      ring_nf

theorem candRun_sum_ne (h : ℕ) (cands : List (ℕ × PowerSource)) (rd : ℚ)
    (st : AllocState) (h2 : ℕ) (hne : h2 ≠ h) :
    sumAt (candRun h cands rd st).2.source_power h2 = sumAt st.source_power h2 := by
  induction cands generalizing rd st with
  | nil => rfl
  | cons c rest ih =>
      obtain ⟨i, s⟩ := c
      simp only [candRun]
      rw [ih _ _, candStep_sum_ne h i s rd st h2 hne]

theorem candRun_rem_none (h : ℕ) (cands : List (ℕ × PowerSource)) (rd : ℚ)
    (st : AllocState) (nm : String) (hnone : dlookup st.remaining nm = none) :
    dlookup (candRun h cands rd st).2.remaining nm = none := by
  induction cands generalizing rd st with
  | nil => exact hnone
  | cons c rest ih =>
      obtain ⟨i, s⟩ := c
      exact ih _ _ (candStep_rem_none h i s rd st nm hnone)

theorem candRun_rem_some (h : ℕ) (cands : List (ℕ × PowerSource)) (rd : ℚ)
    (st : AllocState) (nm : String) (e : Energy)
    (hsome : dlookup st.remaining nm = some e) :
    ∃ e2, dlookup (candRun h cands rd st).2.remaining nm = some e2 ∧ EStep e e2 := by
  induction cands generalizing rd st e with
  | nil => exact ⟨e, hsome, EStep_refl e⟩
  | cons c rest ih =>
      obtain ⟨i, s⟩ := c
      rcases candStep_rem_some h i s rd st nm e hsome with ⟨e2, he2, hstep⟩
      rcases ih _ _ e2 he2 with ⟨e3, he3, hstep2⟩
      exact ⟨e3, he3, EStep_trans e e2 e3 hstep hstep2⟩

theorem candRun_sync (sources : List PowerSource) (hours h : ℕ)
    (cands : List (ℕ × PowerSource)) (rd : ℚ) (st : AllocState)
    (hn : (sources.map PowerSource.name).Nodup)
    (hv : validCands sources cands) (hh : h < hours) (hinv : StInv sources hours st)
    (hsync : ∀ j s2, sources[j]? = some s2 →
      dlookup st.source_power s2.name = some (st.schedules.getD j [])) :
    ∀ j s2, sources[j]? = some s2 →
      dlookup (candRun h cands rd st).2.source_power s2.name =
        some ((candRun h cands rd st).2.schedules.getD j []) := by
  induction cands generalizing rd st with
  | nil => exact hsync
  | cons c rest ih =>
      obtain ⟨i, s⟩ := c
      rcases validCands_cons sources _ _ hv with ⟨hc, hrest⟩
      exact ih _ _ hrest (candStep_inv sources hours h i s rd st hc hh hinv)
        (candStep_sync sources hours h i s rd st hn hc hinv hsync)

theorem candRun_cap (sources : List PowerSource) (hours h : ℕ)
    (cands : List (ℕ × PowerSource)) (rd : ℚ) (st : AllocState)
    (hv : validCands sources cands) (hh : h < hours) (hinv : WInv sources hours st)
    (hcap : ∀ j s2, sources[j]? = some s2 → ∀ h2,
      (st.schedules.getD j []).getD h2 0 ≤ s2.max_power_w) :
    ∀ j s2, sources[j]? = some s2 → ∀ h2,
      ((candRun h cands rd st).2.schedules.getD j []).getD h2 0 ≤ s2.max_power_w := by
  induction cands generalizing rd st with
  | nil => exact hcap
  | cons c rest ih =>
      obtain ⟨i, s⟩ := c
      rcases validCands_cons sources _ _ hv with ⟨hc, hrest⟩
      exact ih _ _ hrest (candStep_winv sources hours h i s rd st hc hinv)
        (candStep_cap sources hours h i s rd st hc hh hinv hcap)

/-! ### resolveCands and allocSinks case equations -/

theorem resolveCands_ok_mem (byName : List (String × (ℕ × PowerSource)))
    (names : List String) (cands : List (ℕ × PowerSource))
    (hok : resolveCands byName names = Except.ok cands) :
    ∀ c ∈ cands, ∃ nm, dlookup byName nm = some c := by
  induction names generalizing cands with
  | nil =>
      simp only [resolveCands] at hok
      cases hok
      intro c hc
      simp at hc
  | cons n rest ih =>
      simp only [resolveCands] at hok
      rcases hl : dlookup byName n with _ | p
      · rw [hl] at hok
        cases hok
      · rw [hl] at hok
        rcases hr : resolveCands byName rest with e | ps
        · rw [hr] at hok
          cases hok
        · rw [hr] at hok
          cases hok
          intro c hc
          rcases List.mem_cons.mp hc with hc2 | hc2
          · exact ⟨n, by rw [hl, hc2]⟩
          · exact ih ps hr c hc2

theorem resolveCands_ok_lookup (byName : List (String × (ℕ × PowerSource)))
    (names : List String) (cands : List (ℕ × PowerSource))
    (hok : resolveCands byName names = Except.ok cands) :
    ∀ nm ∈ names, ∃ p, dlookup byName nm = some p := by
  induction names generalizing cands with
  | nil =>
      intro nm hnm
      simp at hnm
  | cons n rest ih =>
      simp only [resolveCands] at hok
      rcases hl : dlookup byName n with _ | p
      · rw [hl] at hok
        cases hok
      · rw [hl] at hok
        rcases hr : resolveCands byName rest with e | ps
        · rw [hr] at hok
          cases hok
        · intro nm hnm
          rcases List.mem_cons.mp hnm with hnm2 | hnm2
          · exact ⟨p, by rw [hnm2, hl]⟩
          · exact ih ps hr nm hnm2

theorem resolveCands_error_shape (byName : List (String × (ℕ × PowerSource)))
    (names : List String) (e : String)
    (herr : resolveCands byName names = Except.error e) :
    ∃ nm, e = "Assignment references unknown source: " ++ nm := by
  induction names generalizing e with
  | nil =>
      simp only [resolveCands] at herr
      cases herr
  | cons n rest ih =>
      simp only [resolveCands] at herr
      rcases hl : dlookup byName n with _ | p
      · rw [hl] at herr
        cases herr
        exact ⟨n, rfl⟩
      · rw [hl] at herr
        rcases hr : resolveCands byName rest with e2 | ps
        · rw [hr] at herr
          cases herr
          exact ih e hr
        · rw [hr] at herr
          cases herr

theorem allocSinks_nil (ctx : AllocCtx) (h : ℕ) (st : AllocState) (u : ℚ) :
    allocSinks ctx h [] st u = Except.ok (st, u) := rfl

theorem allocSinks_cons_skip (ctx : AllocCtx) (h : ℕ) (nm : String) (sk : PowerSink)
    (rest : List (String × PowerSink)) (st : AllocState) (u : ℚ)
    (hd : sinkDemand ctx h nm ≤ 0) :
    allocSinks ctx h ((nm, sk) :: rest) st u = allocSinks ctx h rest st u := by
  simp only [allocSinks]
  rw [if_pos hd]

theorem allocSinks_cons_err (ctx : AllocCtx) (h : ℕ) (nm : String) (sk : PowerSink)
    (rest : List (String × PowerSink)) (st : AllocState) (u : ℚ) (e : String)
    (hd : ¬ sinkDemand ctx h nm ≤ 0) (he : sinkCands ctx nm = Except.error e) :
    allocSinks ctx h ((nm, sk) :: rest) st u = Except.error e := by
  simp only [allocSinks]
  rw [if_neg hd, he]

theorem allocSinks_cons_run (ctx : AllocCtx) (h : ℕ) (nm : String) (sk : PowerSink)
    (rest : List (String × PowerSink)) (st : AllocState) (u : ℚ)
    (cands : List (ℕ × PowerSource))
    (hd : ¬ sinkDemand ctx h nm ≤ 0) (hc : sinkCands ctx nm = Except.ok cands) :
    allocSinks ctx h ((nm, sk) :: rest) st u =
      allocSinks ctx h rest (candRun h cands (sinkDemand ctx h nm) st).2
        (if 0 < (candRun h cands (sinkDemand ctx h nm) st).1 then
          u + (candRun h cands (sinkDemand ctx h nm) st).1
         else u) := by
  simp only [allocSinks]
  rw [if_neg hd, hc]
  show (match allocCands h cands (sinkDemand ctx h nm) st with
    | Except.error e => Except.error e
    | Except.ok (st2, remaining_demand) =>
        allocSinks ctx h rest st2
          (if 0 < remaining_demand then u + remaining_demand else u)) = _
  rw [allocCands_eq]

/-! ### allocSinks properties -/

theorem sinkCands_valid (ctx : AllocCtx) (nm : String) (cands : List (ℕ × PowerSource))
    (hc : sinkCands ctx nm = Except.ok cands)
    (hvd : validCands ctx.sources ctx.default_order)
    (hvb : ∀ nm2 p, dlookup ctx.sources_by_name nm2 = some p →
      ctx.sources[p.1]? = some p.2) :
    validCands ctx.sources cands := by
  unfold sinkCands at hc
  rcases hasg : ctx.assignments with _ | asg
  · simp only [hasg] at hc
    cases hc
    exact hvd
  · simp only [hasg] at hc
    rcases hl : dlookup asg nm with _ | ns
    · simp only [hl] at hc
      cases hc
      exact hvd
    · simp only [hl] at hc
      intro c hcmem
      rcases resolveCands_ok_mem _ _ _ hc c hcmem with ⟨nm2, hnm2⟩
      exact hvb nm2 c hnm2

theorem sinkCands_error_shape (ctx : AllocCtx) (nm : String) (e : String)
    (hc : sinkCands ctx nm = Except.error e) :
    ∃ nm2, e = "Assignment references unknown source: " ++ nm2 := by
  unfold sinkCands at hc
  rcases hasg : ctx.assignments with _ | asg
  · simp only [hasg] at hc
    cases hc
  · simp only [hasg] at hc
    rcases hl : dlookup asg nm with _ | ns
    · simp only [hl] at hc
      cases hc
    · simp only [hl] at hc
      exact resolveCands_error_shape _ _ _ hc

theorem allocSinks_inv (ctx : AllocCtx) (hours h : ℕ) (items : List (String × PowerSink))
    (st : AllocState) (u : ℚ) (st2 : AllocState) (u2 : ℚ)
    (hok : allocSinks ctx h items st u = Except.ok (st2, u2))
    (hvd : validCands ctx.sources ctx.default_order)
    (hvb : ∀ nm p, dlookup ctx.sources_by_name nm = some p → ctx.sources[p.1]? = some p.2)
    (hh : h < hours) (hinv : StInv ctx.sources hours st) :
    StInv ctx.sources hours st2 := by
  induction items generalizing st u with
  | nil =>
      rw [allocSinks_nil] at hok
      cases hok
      exact hinv
  | cons item rest ih =>
      obtain ⟨nm, sk⟩ := item
      by_cases hd : sinkDemand ctx h nm ≤ 0
      · rw [allocSinks_cons_skip _ _ _ _ _ _ _ hd] at hok
        exact ih _ _ hok hinv
      · rcases hc : sinkCands ctx nm with e | cands
        · rw [allocSinks_cons_err _ _ _ _ _ _ _ _ hd hc] at hok
          cases hok
        · rw [allocSinks_cons_run _ _ _ _ _ _ _ _ hd hc] at hok
          exact ih _ _ hok
            (candRun_inv ctx.sources hours h cands _ st
              (sinkCands_valid ctx nm cands hc hvd hvb) hh hinv)

theorem allocSinks_sum (ctx : AllocCtx) (hours h : ℕ) (items : List (String × PowerSink))
    (st : AllocState) (u : ℚ) (st2 : AllocState) (u2 : ℚ)
    (hok : allocSinks ctx h items st u = Except.ok (st2, u2))
    (hvd : validCands ctx.sources ctx.default_order)
    (hvb : ∀ nm p, dlookup ctx.sources_by_name nm = some p → ctx.sources[p.1]? = some p.2)
    (hh : h < hours) (hinv : StInv ctx.sources hours st)
    (hnn : ∀ nm, 0 ≤ sinkDemand ctx h nm) :
    sumAt st2.source_power h + u2 =
      sumAt st.source_power h + u +
        (items.map (fun it => sinkDemand ctx h it.1)).sum := by
  induction items generalizing st u with
  | nil =>
      rw [allocSinks_nil] at hok
      cases hok
      simp
  | cons item rest ih =>
      obtain ⟨nm, sk⟩ := item
      by_cases hd : sinkDemand ctx h nm ≤ 0
      · rw [allocSinks_cons_skip _ _ _ _ _ _ _ hd] at hok
        have hz : sinkDemand ctx h nm = 0 := le_antisymm hd (hnn nm)
        rw [ih _ _ hok hinv]
        simp [hz]
      · rcases hc : sinkCands ctx nm with e | cands
        · rw [allocSinks_cons_err _ _ _ _ _ _ _ _ hd hc] at hok
          cases hok
        · rw [allocSinks_cons_run _ _ _ _ _ _ _ _ hd hc] at hok
          have hvc := sinkCands_valid ctx nm cands hc hvd hvb
          have hinv2 := candRun_inv ctx.sources hours h cands (sinkDemand ctx h nm) st hvc hh hinv
          have hsum := candRun_sum ctx.sources hours h cands (sinkDemand ctx h nm) st hvc hh hinv
          have hrd := candRun_rd h cands (sinkDemand ctx h nm) st
      -- shorthand
          push_neg at hd
          have hrd2 : 0 ≤ (candRun h cands (sinkDemand ctx h nm) st).1 :=
            hrd.2 (le_of_lt hd)
          have hu3 : (if 0 < (candRun h cands (sinkDemand ctx h nm) st).1 then
              u + (candRun h cands (sinkDemand ctx h nm) st).1 else u) =
              u + (candRun h cands (sinkDemand ctx h nm) st).1 := by
            rcases lt_or_eq_of_le hrd2 with hlt | heq
            · rw [if_pos hlt]
            · rw [if_neg (by rw [← heq]; exact lt_irrefl 0), ← heq, add_zero]
          rw [hu3] at hok
          rw [ih _ _ hok hinv2, hsum]
          simp only [List.map_cons, List.sum_cons]
          ring

theorem allocSinks_sum_ne (ctx : AllocCtx) (h : ℕ) (items : List (String × PowerSink))
    (st : AllocState) (u : ℚ) (st2 : AllocState) (u2 : ℚ)
    (hok : allocSinks ctx h items st u = Except.ok (st2, u2))
    (h2 : ℕ) (hne : h2 ≠ h) :
    sumAt st2.source_power h2 = sumAt st.source_power h2 := by
  induction items generalizing st u with
  | nil =>
      rw [allocSinks_nil] at hok
      cases hok
      rfl
  | cons item rest ih =>
      obtain ⟨nm, sk⟩ := item
      by_cases hd : sinkDemand ctx h nm ≤ 0
      · rw [allocSinks_cons_skip _ _ _ _ _ _ _ hd] at hok
        exact ih _ _ hok
      · rcases hc : sinkCands ctx nm with e | cands
        · rw [allocSinks_cons_err _ _ _ _ _ _ _ _ hd hc] at hok
          cases hok
        · rw [allocSinks_cons_run _ _ _ _ _ _ _ _ hd hc] at hok
          rw [ih _ _ hok, candRun_sum_ne h cands _ st h2 hne]

theorem allocSinks_rem_none (ctx : AllocCtx) (h : ℕ) (items : List (String × PowerSink))
    (st : AllocState) (u : ℚ) (st2 : AllocState) (u2 : ℚ)
    (hok : allocSinks ctx h items st u = Except.ok (st2, u2))
    (nm : String) (hnone : dlookup st.remaining nm = none) :
    dlookup st2.remaining nm = none := by
  induction items generalizing st u with
  | nil =>
      rw [allocSinks_nil] at hok
      cases hok
      exact hnone
  | cons item rest ih =>
      obtain ⟨nm2, sk⟩ := item
      by_cases hd : sinkDemand ctx h nm2 ≤ 0
      · rw [allocSinks_cons_skip _ _ _ _ _ _ _ hd] at hok
        exact ih _ _ hok hnone
      · rcases hc : sinkCands ctx nm2 with e | cands
        · rw [allocSinks_cons_err _ _ _ _ _ _ _ _ hd hc] at hok
          cases hok
        · rw [allocSinks_cons_run _ _ _ _ _ _ _ _ hd hc] at hok
          exact ih _ _ hok (candRun_rem_none h cands _ st nm hnone)

theorem allocSinks_rem_some (ctx : AllocCtx) (h : ℕ) (items : List (String × PowerSink))
    (st : AllocState) (u : ℚ) (st2 : AllocState) (u2 : ℚ)
    (hok : allocSinks ctx h items st u = Except.ok (st2, u2))
    (nm : String) (e : Energy) (hsome : dlookup st.remaining nm = some e) :
    ∃ e2, dlookup st2.remaining nm = some e2 ∧ EStep e e2 := by
  induction items generalizing st u e with
  | nil =>
      rw [allocSinks_nil] at hok
      cases hok
      exact ⟨e, hsome, EStep_refl e⟩
  | cons item rest ih =>
      obtain ⟨nm2, sk⟩ := item
      by_cases hd : sinkDemand ctx h nm2 ≤ 0
      · rw [allocSinks_cons_skip _ _ _ _ _ _ _ hd] at hok
        exact ih _ _ hok _ hsome
      · rcases hc : sinkCands ctx nm2 with e3 | cands
        · rw [allocSinks_cons_err _ _ _ _ _ _ _ _ hd hc] at hok
          cases hok
        · rw [allocSinks_cons_run _ _ _ _ _ _ _ _ hd hc] at hok
          rcases candRun_rem_some h cands _ st nm e hsome with ⟨e2, he2, hs1⟩
          rcases ih _ _ hok _ he2 with ⟨e4, he4, hs2⟩
          exact ⟨e4, he4, EStep_trans e e2 e4 hs1 hs2⟩

theorem allocSinks_sync (ctx : AllocCtx) (hours h : ℕ) (items : List (String × PowerSink))
    (st : AllocState) (u : ℚ) (st2 : AllocState) (u2 : ℚ)
    (hok : allocSinks ctx h items st u = Except.ok (st2, u2))
    (hn : (ctx.sources.map PowerSource.name).Nodup)
    (hvd : validCands ctx.sources ctx.default_order)
    (hvb : ∀ nm p, dlookup ctx.sources_by_name nm = some p → ctx.sources[p.1]? = some p.2)
    (hh : h < hours) (hinv : StInv ctx.sources hours st)
    (hsync : ∀ j s2, ctx.sources[j]? = some s2 →
      dlookup st.source_power s2.name = some (st.schedules.getD j [])) :
    ∀ j s2, ctx.sources[j]? = some s2 →
      dlookup st2.source_power s2.name = some (st2.schedules.getD j []) := by
  induction items generalizing st u with
  | nil =>
      rw [allocSinks_nil] at hok
      cases hok
      exact hsync
  | cons item rest ih =>
      obtain ⟨nm, sk⟩ := item
      by_cases hd : sinkDemand ctx h nm ≤ 0
      · rw [allocSinks_cons_skip _ _ _ _ _ _ _ hd] at hok
        exact ih _ _ hok hinv hsync
      · rcases hc : sinkCands ctx nm with e | cands
        · rw [allocSinks_cons_err _ _ _ _ _ _ _ _ hd hc] at hok
          cases hok
        · rw [allocSinks_cons_run _ _ _ _ _ _ _ _ hd hc] at hok
          have hvc := sinkCands_valid ctx nm cands hc hvd hvb
          exact ih _ _ hok
            (candRun_inv ctx.sources hours h cands _ st hvc hh hinv)
            (candRun_sync ctx.sources hours h cands _ st hn hvc hh hinv hsync)

theorem allocSinks_winv (ctx : AllocCtx) (hours h : ℕ) (items : List (String × PowerSink))
    (st : AllocState) (u : ℚ) (st2 : AllocState) (u2 : ℚ)
    (hok : allocSinks ctx h items st u = Except.ok (st2, u2))
    (hvd : validCands ctx.sources ctx.default_order)
    (hvb : ∀ nm p, dlookup ctx.sources_by_name nm = some p → ctx.sources[p.1]? = some p.2)
    (hh : h < hours) (hinv : WInv ctx.sources hours st) :
    WInv ctx.sources hours st2 := by
  induction items generalizing st u with
  | nil =>
      rw [allocSinks_nil] at hok
      cases hok
      exact hinv
  | cons item rest ih =>
      obtain ⟨nm, sk⟩ := item
      by_cases hd : sinkDemand ctx h nm ≤ 0
      · rw [allocSinks_cons_skip _ _ _ _ _ _ _ hd] at hok
        exact ih _ _ hok hinv
      · rcases hc : sinkCands ctx nm with e | cands
        · rw [allocSinks_cons_err _ _ _ _ _ _ _ _ hd hc] at hok
          cases hok
        · rw [allocSinks_cons_run _ _ _ _ _ _ _ _ hd hc] at hok
          exact ih _ _ hok
            (candRun_winv ctx.sources hours h cands _ st
              (sinkCands_valid ctx nm cands hc hvd hvb) hinv)

theorem allocSinks_cap (ctx : AllocCtx) (hours h : ℕ) (items : List (String × PowerSink))
    (st : AllocState) (u : ℚ) (st2 : AllocState) (u2 : ℚ)
    (hok : allocSinks ctx h items st u = Except.ok (st2, u2))
    (hvd : validCands ctx.sources ctx.default_order)
    (hvb : ∀ nm p, dlookup ctx.sources_by_name nm = some p → ctx.sources[p.1]? = some p.2)
    (hh : h < hours) (hinv : WInv ctx.sources hours st)
    (hcap : ∀ j s2, ctx.sources[j]? = some s2 → ∀ h2,
      (st.schedules.getD j []).getD h2 0 ≤ s2.max_power_w) :
    ∀ j s2, ctx.sources[j]? = some s2 → ∀ h2,
      (st2.schedules.getD j []).getD h2 0 ≤ s2.max_power_w := by
  induction items generalizing st u with
  | nil =>
      rw [allocSinks_nil] at hok
      cases hok
      exact hcap
  | cons item rest ih =>
      obtain ⟨nm, sk⟩ := item
      by_cases hd : sinkDemand ctx h nm ≤ 0
      · rw [allocSinks_cons_skip _ _ _ _ _ _ _ hd] at hok
        exact ih _ _ hok hinv hcap
      · rcases hc : sinkCands ctx nm with e | cands
        · rw [allocSinks_cons_err _ _ _ _ _ _ _ _ hd hc] at hok
          cases hok
        · rw [allocSinks_cons_run _ _ _ _ _ _ _ _ hd hc] at hok
          have hvc := sinkCands_valid ctx nm cands hc hvd hvb
          exact ih _ _ hok
            (candRun_winv ctx.sources hours h cands _ st hvc hinv)
            (candRun_cap ctx.sources hours h cands _ st hvc hh hinv hcap)

theorem allocSinks_resolved (ctx : AllocCtx) (h : ℕ) (items : List (String × PowerSink))
    (st : AllocState) (u : ℚ) (st2 : AllocState) (u2 : ℚ)
    (hok : allocSinks ctx h items st u = Except.ok (st2, u2)) :
    ∀ it ∈ items, 0 < sinkDemand ctx h it.1 →
      ∃ cands, sinkCands ctx it.1 = Except.ok cands := by
  induction items generalizing st u with
  | nil =>
      intro it hit
      simp at hit
  | cons item rest ih =>
      obtain ⟨nm, sk⟩ := item
      intro it hit hpos
      rcases List.mem_cons.mp hit with hit2 | hit2
      · subst hit2
        by_cases hd : sinkDemand ctx h nm ≤ 0
        · exact absurd hpos (not_lt_of_le hd)
        · rcases hc : sinkCands ctx nm with e | cands
          · rw [allocSinks_cons_err _ _ _ _ _ _ _ _ hd hc] at hok
            cases hok
          · exact ⟨cands, rfl⟩
      · by_cases hd : sinkDemand ctx h nm ≤ 0
        · rw [allocSinks_cons_skip _ _ _ _ _ _ _ hd] at hok
          exact ih _ _ hok it hit2 hpos
        · rcases hc : sinkCands ctx nm with e | cands
          · rw [allocSinks_cons_err _ _ _ _ _ _ _ _ hd hc] at hok
            cases hok
          · rw [allocSinks_cons_run _ _ _ _ _ _ _ _ hd hc] at hok
            exact ih _ _ hok it hit2 hpos

theorem allocSinks_error_shape (ctx : AllocCtx) (h : ℕ)
    (items : List (String × PowerSink)) (st : AllocState) (u : ℚ) (e : String)
    (herr : allocSinks ctx h items st u = Except.error e) :
    ∃ nm, e = "Assignment references unknown source: " ++ nm := by
  induction items generalizing st u with
  | nil =>
      rw [allocSinks_nil] at herr
      cases herr
  | cons item rest ih =>
      obtain ⟨nm, sk⟩ := item
      by_cases hd : sinkDemand ctx h nm ≤ 0
      · rw [allocSinks_cons_skip _ _ _ _ _ _ _ hd] at herr
        exact ih _ _ herr
      · rcases hc : sinkCands ctx nm with e2 | cands
        · rw [allocSinks_cons_err _ _ _ _ _ _ _ _ hd hc] at herr
          cases herr
          exact sinkCands_error_shape ctx nm e hc
        · rw [allocSinks_cons_run _ _ _ _ _ _ _ _ hd hc] at herr
          exact ih _ _ herr

/-! ### appendSnaps and allocHours equations -/

theorem appendSnaps_not_mem (sources : List PowerSource) (rem : List (String × Energy))
    (snaps : List (String × List Energy)) (nm : String)
    (hnm : nm ∉ sources.map PowerSource.name) :
    dlookup (appendSnaps sources rem snaps) nm = dlookup snaps nm := by
  induction sources generalizing snaps with
  | nil => rfl
  | cons s rest ih =>
      simp only [List.map_cons, List.mem_cons] at hnm
      push_neg at hnm
      simp only [appendSnaps]
      rw [ih _ hnm.2, dlookup_dupdate_ne _ _ _ _ hnm.1]

theorem appendSnaps_lookup (sources : List PowerSource) (rem : List (String × Energy))
    (snaps : List (String × List Energy)) (nm : String)
    (hn : (sources.map PowerSource.name).Nodup)
    (hmem : nm ∈ sources.map PowerSource.name)
    (pre : List Energy) (hpre : dlookup snaps nm = some pre) :
    dlookup (appendSnaps sources rem snaps) nm =
      some (pre ++ [(dlookup rem nm).getD (Energy.fin 0)]) := by
  induction sources generalizing snaps with
  | nil => simp at hmem
  | cons s rest ih =>
      simp only [List.map_cons, List.nodup_cons] at hn
      simp only [appendSnaps]
      by_cases hs : s.name = nm
      · have hrest : nm ∉ rest.map PowerSource.name := by
          rw [← hs]
          exact hn.1
        rw [appendSnaps_not_mem rest _ _ nm hrest, hs, dlookup_dupdate_self, hpre]
        rfl
      · have hmem2 : nm ∈ rest.map PowerSource.name := by
          simp only [List.map_cons, List.mem_cons] at hmem
          rcases hmem with h1 | h1
          · exact absurd h1.symm hs
          · exact h1
        exact ih _ hn.2 hmem2 (by
          rw [dlookup_dupdate_ne _ _ _ _ (fun hh => hs hh.symm)]
          exact hpre)

theorem allocHours_nil (ctx : AllocCtx) (st : AllocState) (unmet : List ℚ)
    (snaps : List (String × List Energy)) :
    allocHours ctx [] st unmet snaps = Except.ok (st, unmet, snaps) := rfl

theorem allocHours_cons_ok (ctx : AllocCtx) (h : ℕ) (rest : List ℕ) (st : AllocState)
    (unmet : List ℚ) (snaps : List (String × List Energy)) (st3 : AllocState) (u3 : ℚ)
    (hok : allocSinks ctx h ctx.sink_items st 0 = Except.ok (st3, u3)) :
    allocHours ctx (h :: rest) st unmet snaps =
      allocHours ctx rest st3 (unmet.set h u3) (appendSnaps ctx.sources st3.remaining snaps) := by
  simp only [allocHours]
  rw [hok]

theorem allocHours_cons_err (ctx : AllocCtx) (h : ℕ) (rest : List ℕ) (st : AllocState)
    (unmet : List ℚ) (snaps : List (String × List Energy)) (e : String)
    (herr : allocSinks ctx h ctx.sink_items st 0 = Except.error e) :
    allocHours ctx (h :: rest) st unmet snaps = Except.error e := by
  simp only [allocHours]
  rw [herr]

theorem allocHours_cons_inv (ctx : AllocCtx) (h : ℕ) (rest : List ℕ) (st : AllocState)
    (unmet : List ℚ) (snaps : List (String × List Energy))
    (out : AllocState × List ℚ × List (String × List Energy))
    (hok : allocHours ctx (h :: rest) st unmet snaps = Except.ok out) :
    ∃ st3 u3, allocSinks ctx h ctx.sink_items st 0 = Except.ok (st3, u3) ∧
      allocHours ctx rest st3 (unmet.set h u3)
        (appendSnaps ctx.sources st3.remaining snaps) = Except.ok out := by
  rcases hs : allocSinks ctx h ctx.sink_items st 0 with e | p
  · rw [allocHours_cons_err _ _ _ _ _ _ _ hs] at hok
    cases hok
  · obtain ⟨st3, u3⟩ := p
    rw [allocHours_cons_ok _ _ _ _ _ _ _ _ hs] at hok
    exact ⟨st3, u3, rfl, hok⟩

/-! ### allocHours properties -/

theorem allocHours_inv (ctx : AllocCtx) (hours : ℕ) (hs : List ℕ) (st : AllocState)
    (unmet : List ℚ) (snaps : List (String × List Energy))
    (out : AllocState × List ℚ × List (String × List Energy))
    (hok : allocHours ctx hs st unmet snaps = Except.ok out)
    (hvd : validCands ctx.sources ctx.default_order)
    (hvb : ∀ nm p, dlookup ctx.sources_by_name nm = some p → ctx.sources[p.1]? = some p.2)
    (hbound : ∀ h ∈ hs, h < hours) (hinv : StInv ctx.sources hours st) :
    StInv ctx.sources hours out.1 := by
  induction hs generalizing st unmet snaps with
  | nil =>
      rw [allocHours_nil] at hok
      cases hok
      exact hinv
  | cons h rest ih =>
      rcases allocHours_cons_inv _ _ _ _ _ _ _ hok with ⟨st3, u3, hs1, hs2⟩
      have hh : h < hours := hbound h (List.mem_cons_self h rest)
      exact ih _ _ _ hs2 (fun h2 hmem => hbound h2 (List.mem_cons_of_mem h hmem))
        (allocSinks_inv ctx hours h ctx.sink_items st 0 st3 u3 hs1 hvd hvb hh hinv)

theorem allocHours_error_shape (ctx : AllocCtx) (hs : List ℕ) (st : AllocState)
    (unmet : List ℚ) (snaps : List (String × List Energy)) (e : String)
    (herr : allocHours ctx hs st unmet snaps = Except.error e) :
    ∃ nm, e = "Assignment references unknown source: " ++ nm := by
  induction hs generalizing st unmet snaps with
  | nil =>
      rw [allocHours_nil] at herr
      cases herr
  | cons h rest ih =>
      rcases hsr : allocSinks ctx h ctx.sink_items st 0 with e2 | p
      · rw [allocHours_cons_err _ _ _ _ _ _ _ hsr] at herr
        cases herr
        exact allocSinks_error_shape ctx h ctx.sink_items st 0 e hsr
      · obtain ⟨st3, u3⟩ := p
        rw [allocHours_cons_ok _ _ _ _ _ _ _ _ hsr] at herr
        exact ih _ _ _ herr

theorem allocHours_resolved (ctx : AllocCtx) (hs : List ℕ) (st : AllocState)
    (unmet : List ℚ) (snaps : List (String × List Energy))
    (out : AllocState × List ℚ × List (String × List Energy))
    (hok : allocHours ctx hs st unmet snaps = Except.ok out) :
    ∀ h ∈ hs, ∀ it ∈ ctx.sink_items, 0 < sinkDemand ctx h it.1 →
      ∃ cands, sinkCands ctx it.1 = Except.ok cands := by
  induction hs generalizing st unmet snaps with
  | nil =>
      intro h hmem
      simp at hmem
  | cons h2 rest ih =>
      rcases allocHours_cons_inv _ _ _ _ _ _ _ hok with ⟨st3, u3, hs1, hs2⟩
      intro h hmem it hit hpos
      rcases List.mem_cons.mp hmem with hmem2 | hmem2
      · subst hmem2
        exact allocSinks_resolved ctx h ctx.sink_items st 0 st3 u3 hs1 it hit hpos
      · exact ih _ _ _ hs2 h hmem2 it hit hpos

theorem allocHours_sum (ctx : AllocCtx) (hours : ℕ) (hs : List ℕ) (st : AllocState)
    (unmet : List ℚ) (snaps : List (String × List Energy))
    (out : AllocState × List ℚ × List (String × List Energy))
    (hok : allocHours ctx hs st unmet snaps = Except.ok out)
    (hvd : validCands ctx.sources ctx.default_order)
    (hvb : ∀ nm p, dlookup ctx.sources_by_name nm = some p → ctx.sources[p.1]? = some p.2)
    (hns : hs.Nodup) (hbound : ∀ h ∈ hs, h < hours)
    (hinv : StInv ctx.sources hours st) (hlen : unmet.length = hours)
    (hnn : ∀ h nm, 0 ≤ sinkDemand ctx h nm) :
    (∀ h ∈ hs, sumAt out.1.source_power h + out.2.1.getD h 0 =
        sumAt st.source_power h +
          (ctx.sink_items.map (fun it => sinkDemand ctx h it.1)).sum) ∧
    (∀ h2, h2 ∉ hs → sumAt out.1.source_power h2 = sumAt st.source_power h2 ∧
        out.2.1.getD h2 0 = unmet.getD h2 0) ∧
    out.2.1.length = hours := by
  induction hs generalizing st unmet snaps with
  | nil =>
      rw [allocHours_nil] at hok
      cases hok
      exact ⟨fun h hmem => absurd hmem (List.not_mem_nil h),
        fun h2 _ => ⟨rfl, rfl⟩, hlen⟩
  | cons h rest ih =>
      rcases allocHours_cons_inv _ _ _ _ _ _ _ hok with ⟨st3, u3, hs1, hs2⟩
      simp only [List.nodup_cons] at hns
      have hh : h < hours := hbound h (List.mem_cons_self h rest)
      have hbound2 : ∀ h2 ∈ rest, h2 < hours :=
        fun h2 hm => hbound h2 (List.mem_cons_of_mem h hm)
      have hinv3 := allocSinks_inv ctx hours h ctx.sink_items st 0 st3 u3 hs1 hvd hvb hh hinv
      have hlen3 : (unmet.set h u3).length = hours := by
        rw [List.length_set]
        exact hlen
      rcases ih _ _ _ hs2 hns.2 hbound2 hinv3 hlen3 with ⟨ih1, ih2, ih3⟩
      refine ⟨?_, ?_, ih3⟩
      · intro h2 hmem
        rcases List.mem_cons.mp hmem with hmem2 | hmem2
        · subst hmem2
          rcases ih2 h2 hns.1 with ⟨ihs, ihu⟩
          rw [ihs, ihu, getD_set_eq _ _ _ _ (by rw [hlen]; exact hh)]
          have h4 := allocSinks_sum ctx hours h2 ctx.sink_items st 0 st3 u3 hs1 hvd hvb
            hh hinv (hnn h2)
          linarith [h4]
        · have hne : h2 ≠ h := fun heq => hns.1 (heq ▸ hmem2)
          rw [ih1 h2 hmem2,
            allocSinks_sum_ne ctx h ctx.sink_items st 0 st3 u3 hs1 h2 hne]
      · intro h2 hnot
        simp only [List.mem_cons] at hnot
        push_neg at hnot
        rcases ih2 h2 hnot.2 with ⟨ihs, ihu⟩
        refine ⟨?_, ?_⟩
        · rw [ihs, allocSinks_sum_ne ctx h ctx.sink_items st 0 st3 u3 hs1 h2 hnot.1]
        · rw [ihu, getD_set_ne _ _ _ _ _ (Ne.symm hnot.1)]

theorem allocHours_snaps (ctx : AllocCtx) (hs : List ℕ) (st : AllocState)
    (unmet : List ℚ) (snaps : List (String × List Energy))
    (out : AllocState × List ℚ × List (String × List Energy))
    (hok : allocHours ctx hs st unmet snaps = Except.ok out)
    (hn : (ctx.sources.map PowerSource.name).Nodup)
    (nm : String) (hmem : nm ∈ ctx.sources.map PowerSource.name)
    (e : Energy) (hrem : dlookup st.remaining nm = some e)
    (pre : List Energy) (hpre : dlookup snaps nm = some pre) :
    ∃ post, dlookup out.2.2 nm = some (pre ++ post) ∧ post.length = hs.length ∧
      DescFrom e post := by
  induction hs generalizing st unmet snaps e pre with
  | nil =>
      rw [allocHours_nil] at hok
      cases hok
      exact ⟨[], by simp [hpre], rfl, DescFrom.nil e⟩
  | cons h rest ih =>
      rcases allocHours_cons_inv _ _ _ _ _ _ _ hok with ⟨st3, u3, hs1, hs2⟩
      rcases allocSinks_rem_some ctx h ctx.sink_items st 0 st3 u3 hs1 nm e hrem with
        ⟨e2, he2, hstep⟩
      have hsnap2 : dlookup (appendSnaps ctx.sources st3.remaining snaps) nm =
          some (pre ++ [e2]) := by
        rw [appendSnaps_lookup ctx.sources _ snaps nm hn hmem pre hpre, he2]
        rfl
      rcases ih _ _ _ hs2 e2 he2 (pre ++ [e2]) hsnap2 with ⟨post, hp1, hp2, hp3⟩
      refine ⟨e2 :: post, ?_, ?_, DescFrom.cons e e2 post hstep hp3⟩
      · rw [hp1]
        simp
      · simp [hp2]

theorem allocHours_sync (ctx : AllocCtx) (hours : ℕ) (hs : List ℕ) (st : AllocState)
    (unmet : List ℚ) (snaps : List (String × List Energy))
    (out : AllocState × List ℚ × List (String × List Energy))
    (hok : allocHours ctx hs st unmet snaps = Except.ok out)
    (hn : (ctx.sources.map PowerSource.name).Nodup)
    (hvd : validCands ctx.sources ctx.default_order)
    (hvb : ∀ nm p, dlookup ctx.sources_by_name nm = some p → ctx.sources[p.1]? = some p.2)
    (hbound : ∀ h ∈ hs, h < hours) (hinv : StInv ctx.sources hours st)
    (hsync : ∀ j s2, ctx.sources[j]? = some s2 →
      dlookup st.source_power s2.name = some (st.schedules.getD j [])) :
    ∀ j s2, ctx.sources[j]? = some s2 →
      dlookup out.1.source_power s2.name = some (out.1.schedules.getD j []) := by
  induction hs generalizing st unmet snaps with
  | nil =>
      rw [allocHours_nil] at hok
      cases hok
      exact hsync
  | cons h rest ih =>
      rcases allocHours_cons_inv _ _ _ _ _ _ _ hok with ⟨st3, u3, hs1, hs2⟩
      have hh : h < hours := hbound h (List.mem_cons_self h rest)
      exact ih _ _ _ hs2 (fun h2 hm => hbound h2 (List.mem_cons_of_mem h hm))
        (allocSinks_inv ctx hours h ctx.sink_items st 0 st3 u3 hs1 hvd hvb hh hinv)
        (allocSinks_sync ctx hours h ctx.sink_items st 0 st3 u3 hs1 hn hvd hvb hh hinv hsync)

theorem allocHours_cap (ctx : AllocCtx) (hours : ℕ) (hs : List ℕ) (st : AllocState)
    (unmet : List ℚ) (snaps : List (String × List Energy))
    (out : AllocState × List ℚ × List (String × List Energy))
    (hok : allocHours ctx hs st unmet snaps = Except.ok out)
    (hvd : validCands ctx.sources ctx.default_order)
    (hvb : ∀ nm p, dlookup ctx.sources_by_name nm = some p → ctx.sources[p.1]? = some p.2)
    (hbound : ∀ h ∈ hs, h < hours) (hinv : WInv ctx.sources hours st)
    (hcap : ∀ j s2, ctx.sources[j]? = some s2 → ∀ h2,
      (st.schedules.getD j []).getD h2 0 ≤ s2.max_power_w) :
    ∀ j s2, ctx.sources[j]? = some s2 → ∀ h2,
      (out.1.schedules.getD j []).getD h2 0 ≤ s2.max_power_w := by
  induction hs generalizing st unmet snaps with
  | nil =>
      rw [allocHours_nil] at hok
      cases hok
      exact hcap
  | cons h rest ih =>
      rcases allocHours_cons_inv _ _ _ _ _ _ _ hok with ⟨st3, u3, hs1, hs2⟩
      have hh : h < hours := hbound h (List.mem_cons_self h rest)
      exact ih _ _ _ hs2 (fun h2 hm => hbound h2 (List.mem_cons_of_mem h hm))
        (allocSinks_winv ctx hours h ctx.sink_items st 0 st3 u3 hs1 hvd hvb hh hinv)
        (allocSinks_cap ctx hours h ctx.sink_items st 0 st3 u3 hs1 hvd hvb hh hinv hcap)

/-! ### generate_schedule inversion and initial-state facts -/

theorem generate_schedule_ok_inv (site : FieldDaySite) (hours : ℕ) (policy : String)
    (duty : Option (List (String × List ℚ))) (asg : Option (List (String × List String)))
    (res : ScheduleResult) (total : List ℚ) (per : List (String × List ℚ))
    (hcomp : compute_sink_loads_by_hour site.sinks hours duty = Except.ok (total, per))
    (hrun : generate_schedule site hours policy duty asg = Except.ok res) :
    ∃ out, allocHours
        ⟨site.sources, per, asg, sources_by_name_dict site.sources,
         default_order_of policy site.sources.enum, sinks_by_name_dict site.sinks⟩
        (List.range hours)
        ⟨reset_source_schedules site.sources hours, init_remaining site.sources,
         init_source_power site.sources hours⟩
        (List.replicate hours 0) (init_snaps site.sources) = Except.ok out ∧
      res.source_power_w = out.1.source_power ∧
      res.source_energy_remaining_wh =
        out.2.2.map (fun p => (p.1, (p.2.drop 1).take hours)) ∧
      res.unmet_load_w = out.2.1 ∧
      res.schedules = out.1.schedules := by
  unfold generate_schedule at hrun
  simp only [hcomp] at hrun
  rcases hr : allocHours
      ⟨site.sources, per, asg, sources_by_name_dict site.sources,
       default_order_of policy site.sources.enum, sinks_by_name_dict site.sinks⟩
      (List.range hours)
      ⟨reset_source_schedules site.sources hours, init_remaining site.sources,
       init_source_power site.sources hours⟩
      (List.replicate hours 0) (init_snaps site.sources) with e | out
  · simp only [hr] at hrun
    cases hrun
  · simp only [hr] at hrun
    obtain ⟨stF, unmetF, snapsF⟩ := out
    cases hrun
    exact ⟨(stF, unmetF, snapsF), rfl, rfl, rfl, rfl, rfl⟩

theorem generate_schedule_err_inv (site : FieldDaySite) (hours : ℕ) (policy : String)
    (duty : Option (List (String × List ℚ))) (asg : Option (List (String × List String)))
    (e : String) (total : List ℚ) (per : List (String × List ℚ))
    (hcomp : compute_sink_loads_by_hour site.sinks hours duty = Except.ok (total, per))
    (hrun : generate_schedule site hours policy duty asg = Except.error e) :
    allocHours
        ⟨site.sources, per, asg, sources_by_name_dict site.sources,
         default_order_of policy site.sources.enum, sinks_by_name_dict site.sinks⟩
        (List.range hours)
        ⟨reset_source_schedules site.sources hours, init_remaining site.sources,
         init_source_power site.sources hours⟩
        (List.replicate hours 0) (init_snaps site.sources) = Except.error e := by
  unfold generate_schedule at hrun
  simp only [hcomp] at hrun
  rcases hr : allocHours
      ⟨site.sources, per, asg, sources_by_name_dict site.sources,
       default_order_of policy site.sources.enum, sinks_by_name_dict site.sinks⟩
      (List.range hours)
      ⟨reset_source_schedules site.sources hours, init_remaining site.sources,
       init_source_power site.sources hours⟩
      (List.replicate hours 0) (init_snaps site.sources) with e2 | out
  · simp only [hr] at hrun
    cases hrun
    rfl
  · simp only [hr] at hrun
    obtain ⟨stF, unmetF, snapsF⟩ := out
    cases hrun

theorem dinsert_entries {α : Type} (d : List (String × α)) (k : String) (v : α)
    (p : String × α) (hp : p ∈ dinsert d k v) : p ∈ d ∨ p = (k, v) := by
  induction d with
  | nil =>
      simp only [dinsert, List.mem_singleton] at hp
      exact Or.inr hp
  | cons q rest ih =>
      by_cases hq : q.1 = k
      · simp only [dinsert, if_pos hq, List.mem_cons] at hp
        rcases hp with hp | hp
        · exact Or.inr hp
        · exact Or.inl (List.mem_cons_of_mem _ hp)
      · simp only [dinsert, if_neg hq, List.mem_cons] at hp
        rcases hp with hp | hp
        · exact Or.inl (by rw [hp]; exact List.mem_cons_self _ _)
        · rcases ih hp with hh | hh
          · exact Or.inl (List.mem_cons_of_mem _ hh)
          · exact Or.inr hh

theorem foldl_dinsert_entries {α β : Type} (key : β → String) (val : β → α)
    (l : List β) (d : List (String × α)) (p : String × α)
    (hp : p ∈ l.foldl (fun d b => dinsert d (key b) (val b)) d) :
    p ∈ d ∨ ∃ b ∈ l, p = (key b, val b) := by
  induction l generalizing d with
  | nil => exact Or.inl hp
  | cons b rest ih =>
      rw [List.foldl_cons] at hp
      rcases ih (dinsert d (key b) (val b)) hp with hh | ⟨b2, hb2, hb3⟩
      · rcases dinsert_entries d (key b) (val b) p hh with h2 | h2
        · exact Or.inl h2
        · exact Or.inr ⟨b, List.mem_cons_self b rest, h2⟩
      · exact Or.inr ⟨b2, List.mem_cons_of_mem b hb2, hb3⟩

theorem keys_dinsert_mem {α : Type} (d : List (String × α)) (k : String) (v : α)
    (k2 : String) (hk2 : k2 ∈ (dinsert d k v).map Prod.fst) :
    k2 ∈ d.map Prod.fst ∨ k2 = k := by
  rcases List.mem_map.mp hk2 with ⟨p, hp, hpk⟩
  rcases dinsert_entries d k v p hp with hh | hh
  · exact Or.inl (hpk ▸ List.mem_map_of_mem Prod.fst hh)
  · right
    rw [← hpk, hh]

theorem sources_by_name_valid (sources : List PowerSource) (nm : String)
    (p : ℕ × PowerSource) (hp : dlookup (sources_by_name_dict sources) nm = some p) :
    sources[p.1]? = some p.2 := by
  have hmem := mem_of_dlookup _ _ _ hp
  rcases foldl_dinsert_entries (fun q : ℕ × PowerSource => q.2.name) (fun q => q)
    sources.enum [] (nm, p) hmem with hh | ⟨b, hb, hb2⟩
  · simp at hh
  · have hpb : p = b := congrArg Prod.snd hb2
    rw [hpb]
    exact List.mem_enum_iff_getElem?.mp hb

theorem sources_by_name_keys_sub (sources : List PowerSource) (nm : String)
    (hmem : nm ∈ (sources_by_name_dict sources).map Prod.fst) :
    nm ∈ sources.map PowerSource.name := by
  rcases List.mem_map.mp hmem with ⟨p, hp, hpk⟩
  rcases foldl_dinsert_entries (fun q : ℕ × PowerSource => q.2.name) (fun q => q)
    sources.enum [] p hp with hh | ⟨b, hb, hb2⟩
  · simp at hh
  · have : p.1 = b.2.name := by rw [hb2]
    rw [← hpk, this]
    have hbmem : b.2 ∈ sources := by
      have := List.mem_enum_iff_getElem?.mp hb
      have hl := lt_length_of_getElem? sources b.1 b.2 this
      have := getElem_of_getElem? sources b.1 b.2 this hl
      rw [← this]
      exact List.getElem_mem hl
    exact List.mem_map_of_mem PowerSource.name hbmem

theorem default_order_mem (policy : String) (e : List (ℕ × PowerSource))
    (c : ℕ × PowerSource) (hc : c ∈ default_order_of policy e) : c ∈ e := by
  unfold default_order_of at hc
  by_cases h1 : policy = "battery_last"
  · rw [if_pos h1] at hc
    rcases List.mem_append.mp hc with hh | hh
    · exact List.mem_of_mem_filter hh
    · exact List.mem_of_mem_filter hh
  · rw [if_neg h1] at hc
    by_cases h2 : policy = "battery_first"
    · rw [if_pos h2] at hc
      rcases List.mem_append.mp hc with hh | hh
      · exact List.mem_of_mem_filter hh
      · exact List.mem_of_mem_filter hh
    · rw [if_neg h2] at hc
      exact hc

theorem default_order_valid (sources : List PowerSource) (policy : String) :
    validCands sources (default_order_of policy sources.enum) := by
  intro c hc
  exact List.mem_enum_iff_getElem?.mp (default_order_mem policy sources.enum c hc)

theorem energy_if_eq (s : PowerSource) :
    (if is_infinite s then Energy.inf else s.total_energy_wh) = s.total_energy_wh := by
  unfold is_infinite
  rcases he : s.total_energy_wh with _ | r <;> simp

theorem dlookup_map_pairs {α β : Type} (key : β → String) (val : β → α) (l : List β)
    (hn : (l.map key).Nodup) (b : β) (hb : b ∈ l) :
    dlookup (l.map (fun x => (key x, val x))) (key b) = some (val b) := by
  induction l with
  | nil => simp at hb
  | cons c rest ih =>
      simp only [List.map_cons, List.nodup_cons] at hn
      rcases List.mem_cons.mp hb with hb2 | hb2
      · subst hb2
        exact dlookup_cons_self _ _ _
      · by_cases hkey : key c = key b
        · exact absurd (hkey ▸ List.mem_map_of_mem key hb2) hn.1
        · rw [List.map_cons, dlookup_cons_ne _ _ _ _ hkey]
          exact ih hn.2 hb2

theorem init_remaining_eq (sources : List PowerSource)
    (hn : (sources.map PowerSource.name).Nodup) :
    init_remaining sources = sources.map (fun s => (s.name, s.total_energy_wh)) := by
  unfold init_remaining
  rw [foldl_dinsert_fresh PowerSource.name
    (fun s => if is_infinite s then Energy.inf else s.total_energy_wh) sources [] hn
    (fun b _ hmem => by simp at hmem)]
  rw [List.nil_append]
  apply List.map_congr_left
  intro s _
  rw [energy_if_eq]

theorem init_remaining_lookup (sources : List PowerSource)
    (hn : (sources.map PowerSource.name).Nodup) (s : PowerSource) (hs : s ∈ sources) :
    dlookup (init_remaining sources) s.name = some s.total_energy_wh := by
  rw [init_remaining_eq sources hn]
  exact dlookup_map_pairs PowerSource.name PowerSource.total_energy_wh sources hn s hs

theorem init_source_power_eq (sources : List PowerSource) (hours : ℕ)
    (hn : (sources.map PowerSource.name).Nodup) :
    init_source_power sources hours =
      sources.map (fun s => (s.name, List.replicate hours (0 : ℚ))) := by
  unfold init_source_power
  rw [foldl_dinsert_fresh PowerSource.name (fun _ => List.replicate hours (0 : ℚ))
    sources [] hn (fun b _ hmem => by simp at hmem)]
  rw [List.nil_append]

theorem init_snaps_eq (sources : List PowerSource)
    (hn : (sources.map PowerSource.name).Nodup) :
    init_snaps sources = sources.map (fun s => (s.name, [s.total_energy_wh])) := by
  unfold init_snaps
  rw [foldl_dinsert_fresh PowerSource.name
    (fun s => [(dlookup (init_remaining sources) s.name).getD (Energy.fin 0)])
    sources [] hn (fun b _ hmem => by simp at hmem)]
  rw [List.nil_append]
  apply List.map_congr_left
  intro s hs
  rw [init_remaining_lookup sources hn s hs]
  rfl

theorem init_snaps_lookup (sources : List PowerSource)
    (hn : (sources.map PowerSource.name).Nodup) (s : PowerSource) (hs : s ∈ sources) :
    dlookup (init_snaps sources) s.name = some [s.total_energy_wh] := by
  rw [init_snaps_eq sources hn]
  exact dlookup_map_pairs PowerSource.name (fun s => [s.total_energy_wh]) sources hn s hs

theorem keys_map_pairs {α β : Type} (key : β → String) (val : β → α) (l : List β) :
    (l.map (fun x => (key x, val x))).map Prod.fst = l.map key := by
  rw [List.map_map]
  rfl

theorem init_StInv (sources : List PowerSource) (hours : ℕ)
    (hn : (sources.map PowerSource.name).Nodup) :
    StInv sources hours
      ⟨reset_source_schedules sources hours, init_remaining sources,
       init_source_power sources hours⟩ := by
  refine ⟨?_, ?_, ?_, ?_, ?_⟩
  · exact List.length_map sources _
  · intro l hl
    rcases List.mem_map.mp hl with ⟨s, _, hval⟩
    rw [← hval, List.length_replicate]
  · rw [init_remaining_eq sources hn]
    exact keys_map_pairs _ _ _
  · rw [init_source_power_eq sources hours hn]
    exact keys_map_pairs _ _ _
  · intro p hp
    rw [init_source_power_eq sources hours hn] at hp
    rcases List.mem_map.mp hp with ⟨s, _, hval⟩
    rw [← hval, List.length_replicate]

theorem mem_of_getElem? {α : Type} (l : List α) (i : ℕ) (a : α) (h : l[i]? = some a) :
    a ∈ l := by
  have hl := lt_length_of_getElem? l i a h
  rw [← getElem_of_getElem? l i a h hl]
  exact List.getElem_mem hl

theorem reset_getD (sources : List PowerSource) (hours : ℕ) (j : ℕ)
    (hj : j < sources.length) :
    (reset_source_schedules sources hours).getD j [] = List.replicate hours (0 : ℚ) := by
  unfold reset_source_schedules
  rw [List.getD_eq_getElem?_getD, List.getElem?_map]
  rcases he : sources[j]? with _ | s
  · rw [List.getElem?_eq_none_iff] at he
    omega
  · rfl

theorem init_sync (sources : List PowerSource) (hours : ℕ)
    (hn : (sources.map PowerSource.name).Nodup) :
    ∀ j s2, sources[j]? = some s2 →
      dlookup (init_source_power sources hours) s2.name =
        some ((reset_source_schedules sources hours).getD j []) := by
  intro j s2 hj
  rw [init_source_power_eq sources hours hn,
    dlookup_map_pairs PowerSource.name (fun _ => List.replicate hours (0 : ℚ)) sources hn
      s2 (mem_of_getElem? sources j s2 hj),
    reset_getD sources hours j (lt_length_of_getElem? sources j s2 hj)]

theorem getD_replicate_zero (n i : ℕ) : (List.replicate n (0 : ℚ)).getD i 0 = 0 := by
  rcases lt_or_le i n with hlt | hle
  · exact getD_replicate n i 0 0 hlt
  · rw [List.getD_eq_getElem?_getD, List.getElem?_replicate, if_neg (by omega)]
    rfl

theorem init_cap (sources : List PowerSource) (hours : ℕ)
    (hcap : ∀ s ∈ sources, 0 ≤ s.max_power_w) :
    ∀ j s2, sources[j]? = some s2 → ∀ h2,
      ((reset_source_schedules sources hours).getD j []).getD h2 0 ≤ s2.max_power_w := by
  intro j s2 hj h2
  rw [reset_getD sources hours j (lt_length_of_getElem? sources j s2 hj),
    getD_replicate_zero]
  exact hcap s2 (mem_of_getElem? sources j s2 hj)

/-! ### compute_sink_loads lemmas -/

theorem dinsert_cons_self {α : Type} (k : String) (v v2 : α) (d : List (String × α)) :
    dinsert ((k, v) :: d) k v2 = (k, v2) :: d := by
  unfold dinsert
  rw [if_pos rfl]

theorem duty_scaled_length (sink : PowerSink) (hours : ℕ)
    (duty : Option (List (String × List ℚ))) (sc : List ℚ)
    (hok : duty_scaled_sched sink hours duty = Except.ok sc) : sc.length = hours := by
  unfold duty_scaled_sched at hok
  rcases duty with _ | sd
  · simp only [Option.some.injEq] at hok
    cases hok
    simp
  · simp only at hok
    rcases hl : dlookup sd sink.name with _ | dl
    · rw [hl] at hok
      cases hok
      simp
    · simp only [hl] at hok
      by_cases hlen : dl.length = hours
      · rw [if_pos hlen] at hok
        cases hok
        simp
      · rw [if_neg hlen] at hok
        cases hok

theorem addSched_length (total sched : List ℚ) (hours : ℕ)
    (h1 : total.length = hours) (h2 : sched.length = hours) :
    (addSched total sched).length = hours := by
  unfold addSched
  rw [List.length_zipWith, h1, h2, min_self]

theorem addSched_getD (total sched : List ℚ) (hours h : ℕ)
    (h1 : total.length = hours) (h2 : sched.length = hours) (hh : h < hours) :
    (addSched total sched).getD h 0 = total.getD h 0 + sched.getD h 0 := by
  unfold addSched
  rw [List.getD_eq_getElem?_getD, List.getElem?_zipWith,
    List.getElem?_eq_getElem (by omega : h < total.length),
    List.getElem?_eq_getElem (by omega : h < sched.length),
    List.getD_eq_getElem?_getD, List.getD_eq_getElem?_getD,
    List.getElem?_eq_getElem (by omega : h < total.length),
    List.getElem?_eq_getElem (by omega : h < sched.length)]
  rfl

theorem compute_loop_demand_sum (hours : ℕ) (duty : Option (List (String × List ℚ)))
    (sinks : List PowerSink) (total : List ℚ) (per : List (String × List ℚ))
    (total2 : List ℚ) (per2 : List (String × List ℚ))
    (hok : compute_sink_loads_loop hours duty sinks total per = Except.ok (total2, per2))
    (hn : (sinks.map PowerSink.name).Nodup)
    (hfresh : ∀ sk ∈ sinks, sk.name ∉ per.map Prod.fst)
    (hlen : total.length = hours) :
    total2.length = hours ∧
    (∀ h, h < hours →
      total2.getD h 0 = total.getD h 0 +
        (sinks.map (fun sk => ((dlookup per2 sk.name).getD []).getD h 0)).sum) ∧
    (∀ nm, nm ∉ sinks.map PowerSink.name → dlookup per2 nm = dlookup per nm) := by
  induction sinks generalizing total per with
  | nil =>
      simp only [compute_sink_loads_loop] at hok
      cases hok
      exact ⟨hlen, fun h _ => by simp, fun nm _ => rfl⟩
  | cons sk rest ih =>
      simp only [compute_sink_loads_loop] at hok
      rcases hd : duty_scaled_sched sk hours duty with e | sc
      · rw [hd] at hok
        cases hok
      · rw [hd] at hok
        simp only [List.map_cons, List.nodup_cons] at hn
        have hsc := duty_scaled_length sk hours duty sc hd
        have hlen2 := addSched_length total sc hours hlen hsc
        have hfresh2 : ∀ sk2 ∈ rest, sk2.name ∉ (dinsert per sk.name sc).map Prod.fst := by
          intro sk2 hsk2 hmem
          rcases keys_dinsert_mem per sk.name sc sk2.name hmem with hh | hh
          · exact hfresh sk2 (List.mem_cons_of_mem sk hsk2) hh
          · exact hn.1 (hh ▸ List.mem_map_of_mem PowerSink.name hsk2)
        rcases ih _ _ hok hn.2 hfresh2 hlen2 with ⟨ih1, ih2, ih3⟩
        refine ⟨ih1, ?_, ?_⟩
        · intro h hh
          rw [ih2 h hh, addSched_getD total sc hours h hlen hsc hh]
          have hskl : dlookup per2 sk.name = some sc := by
            rw [ih3 sk.name hn.1, dlookup_dinsert_self]
          simp only [List.map_cons, List.sum_cons, hskl]
          simp only [Option.getD_some]
          ring
        · intro nm hnm
          simp only [List.map_cons, List.mem_cons] at hnm
          push_neg at hnm
          rw [ih3 nm hnm.2, dlookup_dinsert_ne _ _ _ _ hnm.1]

theorem keys_dinsert_eq {α : Type} (d : List (String × α)) (k : String) (v : α) :
    (dinsert d k v).map Prod.fst =
      if k ∈ d.map Prod.fst then d.map Prod.fst else d.map Prod.fst ++ [k] := by
  induction d with
  | nil => simp [dinsert]
  | cons p rest ih =>
      by_cases hp : p.1 = k
      · have hmem : k ∈ (p :: rest).map Prod.fst := by
          rw [List.map_cons, ← hp]
          exact List.mem_cons_self _ _
        rw [if_pos hmem]
        unfold dinsert
        rw [if_pos hp, List.map_cons, List.map_cons, hp]
      · unfold dinsert
        rw [if_neg hp, List.map_cons, ih, List.map_cons]
        by_cases hmem : k ∈ rest.map Prod.fst
        · rw [if_pos hmem, if_pos (by simp [hmem])]
        · rw [if_neg hmem,
            if_neg (by simp only [List.mem_cons]; push_neg; exact ⟨fun hh => hp hh.symm, hmem⟩)]
          rfl

theorem compute_loop_keys (hours : ℕ) (duty : Option (List (String × List ℚ)))
    (sinks : List PowerSink) (total : List ℚ) (per : List (String × List ℚ))
    (total2 : List ℚ) (per2 : List (String × List ℚ))
    (hok : compute_sink_loads_loop hours duty sinks total per = Except.ok (total2, per2)) :
    per2.map Prod.fst =
      sinks.foldl (fun ks sk => if sk.name ∈ ks then ks else ks ++ [sk.name])
        (per.map Prod.fst) := by
  induction sinks generalizing total per with
  | nil =>
      simp only [compute_sink_loads_loop] at hok
      cases hok
      rfl
  | cons sk rest ih =>
      simp only [compute_sink_loads_loop] at hok
      rcases hd : duty_scaled_sched sk hours duty with e | sc
      · rw [hd] at hok
        cases hok
      · rw [hd] at hok
        rw [List.foldl_cons, ← keys_dinsert_eq per sk.name sc]
        exact ih _ _ hok

theorem sinks_by_name_keys (sinks : List PowerSink) (ks0 : List (String × PowerSink)) :
    (sinks.foldl (fun d sk => dinsert d sk.name sk) ks0).map Prod.fst =
      sinks.foldl (fun ks sk => if sk.name ∈ ks then ks else ks ++ [sk.name])
        (ks0.map Prod.fst) := by
  induction sinks generalizing ks0 with
  | nil => rfl
  | cons sk rest ih =>
      rw [List.foldl_cons, List.foldl_cons, ih, keys_dinsert_eq]

theorem sinkDemand_nonneg (ctx : AllocCtx)
    (hnn : ∀ p ∈ ctx.per_sink_loads, ∀ q ∈ p.2, 0 ≤ q) (h : ℕ) (nm : String) :
    0 ≤ sinkDemand ctx h nm := by
  unfold sinkDemand
  rcases hl : dlookup ctx.per_sink_loads nm with _ | v
  · simp
  · simp only [Option.getD_some]
    rcases lt_or_le h v.length with hlt | hle
    · exact hnn (nm, v) (mem_of_dlookup _ _ _ hl) _ (getD_mem_of_lt v h 0 hlt)
    · rw [List.getD_eq_getElem?_getD, List.getElem?_eq_none (by omega)]
      exact le_refl 0

theorem sinks_by_name_eq (sinks : List PowerSink)
    (hn : (sinks.map PowerSink.name).Nodup) :
    sinks_by_name_dict sinks = sinks.map (fun sk => (sk.name, sk)) := by
  unfold sinks_by_name_dict
  rw [foldl_dinsert_fresh PowerSink.name (fun sk => sk) sinks [] hn
    (fun b _ hmem => by simp at hmem)]
  rw [List.nil_append]

/-! ### Last helpers for the claim theorems -/

theorem generate_schedule_ok_compute (site : FieldDaySite) (hours : ℕ) (policy : String)
    (duty : Option (List (String × List ℚ))) (asg : Option (List (String × List String)))
    (res : ScheduleResult)
    (hrun : generate_schedule site hours policy duty asg = Except.ok res) :
    ∃ total per, compute_sink_loads_by_hour site.sinks hours duty =
      Except.ok (total, per) := by
  unfold generate_schedule at hrun
  rcases hc : compute_sink_loads_by_hour site.sinks hours duty with e | p
  · simp only [hc] at hrun
    cases hrun
  · obtain ⟨t0, p0⟩ := p
    exact ⟨t0, p0, rfl⟩

theorem init_WInv (sources : List PowerSource) (hours : ℕ) :
    WInv sources hours
      ⟨reset_source_schedules sources hours, init_remaining sources,
       init_source_power sources hours⟩ := by
  refine ⟨List.length_map sources _, ?_⟩
  intro l hl
  rcases List.mem_map.mp hl with ⟨s, _, hval⟩
  rw [← hval, List.length_replicate]

theorem sumAt_init_source_power (sources : List PowerSource) (hours h : ℕ) :
    sumAt (init_source_power sources hours) h = 0 := by
  unfold sumAt
  apply List.sum_eq_zero
  intro x hx
  rcases List.mem_map.mp hx with ⟨p, hp, hval⟩
  rcases foldl_dinsert_entries PowerSource.name (fun _ => List.replicate hours (0 : ℚ))
    sources [] p hp with hh | ⟨b, _, hb⟩
  · simp at hh
  · rw [← hval, hb]
    exact getD_replicate_zero hours h

theorem dlookup_map_value {α β : Type} (d : List (String × α)) (g : α → β) (k : String) :
    dlookup (d.map (fun p => (p.1, g p.2))) k = (dlookup d k).map g := by
  induction d with
  | nil => rfl
  | cons p rest ih =>
      by_cases hp : p.1 = k
      · simp only [List.map_cons]
        unfold dlookup
        rw [if_pos hp, if_pos hp]
        rfl
      · simp only [List.map_cons]
        unfold dlookup
        rw [if_neg hp, if_neg hp]
        exact ih

theorem dlookup_snaps_map (d : List (String × List Energy)) (hours : ℕ) (k : String) :
    dlookup (d.map (fun p => (p.1, (p.2.drop 1).take hours))) k =
      (dlookup d k).map (fun l => (l.drop 1).take hours) := by
  induction d with
  | nil => rfl
  | cons p rest ih =>
      by_cases hp : p.1 = k
      · simp only [List.map_cons]
        unfold dlookup
        rw [if_pos hp, if_pos hp]
        rfl
      · simp only [List.map_cons]
        unfold dlookup
        rw [if_neg hp, if_neg hp]
        exact ih

theorem DescFrom_fin (e : Energy) (post : List Energy) (hd : DescFrom e post) :
    ∀ t : ℚ, e = Energy.fin t → 0 ≤ t →
      ∃ qs : List ℚ, post = qs.map Energy.fin ∧
        List.Chain' (fun a b => b ≤ a) qs ∧ (∀ q ∈ qs, 0 ≤ q) ∧
        (∀ q, qs.head? = some q → q ≤ t) := by
  induction hd with
  | nil e =>
      intro t _ _
      exact ⟨[], rfl, List.chain'_nil, fun q hq => absurd hq (List.not_mem_nil q),
        fun q hq => by cases hq⟩
  | cons e e2 l hstep _ ih =>
      intro t het ht
      subst het
      rcases hstep with ⟨hinf, _⟩ | ⟨r, r2, hr, hr2, hle, hnn⟩
      · cases hinf
      · have htr : t = r := (Energy.fin.injEq _ _).mp hr
        subst htr
        rcases ih r2 hr2 (hnn ht) with ⟨qs, hqs, hchain, hpos, hhead⟩
        refine ⟨r2 :: qs, by rw [hqs, hr2, List.map_cons], ?_, ?_, ?_⟩
        · rw [List.chain'_cons']
          exact ⟨fun y hy => hhead y hy, hchain⟩
        · intro q hq
          rcases List.mem_cons.mp hq with hq2 | hq2
          · rw [hq2]
            exact hnn ht
          · exact hpos q hq2
        · intro q hq
          rw [List.head?_cons, Option.some_inj] at hq
          exact hq ▸ hle

theorem DescFrom_inf (e : Energy) (post : List Energy) (hd : DescFrom e post) :
    e = Energy.inf → ∀ x ∈ post, x = Energy.inf := by
  induction hd with
  | nil e2 =>
      intro _ x hx
      exact absurd hx (List.not_mem_nil x)
  | cons e e2 l hstep _ ih =>
      intro he x hx
      subst he
      rcases hstep with ⟨_, hinf2⟩ | ⟨r, r2, hr, _, _, _⟩
      · rcases List.mem_cons.mp hx with hx2 | hx2
        · rw [hx2, hinf2]
        · exact ih hinf2 x hx2
      · cases hr

/-! ### Claim C2 -/

/-- C2 (amended): provided every source has a nonnegative hourly power
cap (`0 ≤ max_power_w`, forced by the negative-cap counterexample,
where the untouched all-zero schedule already exceeds the cap), after
every successful run of generate_schedule every committed source
schedule satisfies `schedule[h] ≤ max_power_w` for every source object
and every hour; and, unconditionally, the defensive error branch of
assign_load is never taken: the candidate loop `allocCands` returns ok
on all inputs (each assignment is bounded by the remaining headroom
`max(0, max_power_w - schedule[h])`). -/
theorem capacity_bound_and_no_error (site : FieldDaySite) (hours : ℕ) (policy : String)
    (duty : Option (List (String × List ℚ))) (asg : Option (List (String × List String)))
    (res : ScheduleResult)
    (hcap : ∀ s ∈ site.sources, 0 ≤ s.max_power_w)
    (hrun : generate_schedule site hours policy duty asg = Except.ok res) :
    (∀ i s, site.sources[i]? = some s → ∀ h,
      (res.schedules.getD i []).getD h 0 ≤ s.max_power_w) ∧
    (∀ h cands rd st, ∃ out, allocCands h cands rd st = Except.ok out) := by
  constructor
  · rcases generate_schedule_ok_compute site hours policy duty asg res hrun with
      ⟨total, per, hcomp⟩
    rcases generate_schedule_ok_inv site hours policy duty asg res total per hcomp hrun with
      ⟨out, hout, _, _, _, hsched⟩
    intro i s hs h
    rw [hsched]
    exact allocHours_cap
      ⟨site.sources, per, asg, sources_by_name_dict site.sources,
       default_order_of policy site.sources.enum, sinks_by_name_dict site.sinks⟩
      hours (List.range hours)
      ⟨reset_source_schedules site.sources hours, init_remaining site.sources,
       init_source_power site.sources hours⟩
      (List.replicate hours 0) (init_snaps site.sources) out hout
      (default_order_valid site.sources policy)
      (fun nm p hp => sources_by_name_valid site.sources nm p hp)
      (fun h2 hm => List.mem_range.mp hm)
      (init_WInv site.sources hours)
      (init_cap site.sources hours hcap)
      i s hs h
  · intro h cands rd st
    exact ⟨((candRun h cands rd st).2, (candRun h cands rd st).1), allocCands_eq h cands rd st⟩

set_option maxRecDepth 10000 in
/-- C2 witness: the amended theorem applied to the concrete drained
scenario, instantiated at source 0 and hour 0. -/
theorem capacity_bound_witness :
    (res_drain_demo.schedules.getD 0 []).getD 0 0 ≤ (1000 : ℚ) :=
  (capacity_bound_and_no_error site_drain_demo 24 "battery_last" none none res_drain_demo
    (by with_unfolding_all decide)
    (by with_unfolding_all decide)).1 0 ⟨"gen", 1000, 120, Energy.fin 1000⟩ rfl 0

/-! ### Claim C1 -/

/-- C1 (amended): for every Site whose sink names and source names are
pairwise distinct, whenever the demand aggregator returns (total, per)
and every per-sink demand value is nonnegative (forced by the
negative-demand counterexample: a negative demand is counted in the
total but skipped by the allocation), and generate_schedule returns a
result, then for every hour h < H the sum over all sources of
`source_power_w[source][h]` plus `unmet_load_w[h]` equals the
duty-scaled total demand `total[h]` computed by
compute_sink_loads_by_hour, under exact arithmetic. -/
theorem conservation_of_nonneg_demand (site : FieldDaySite) (hours : ℕ) (policy : String)
    (duty : Option (List (String × List ℚ))) (asg : Option (List (String × List String)))
    (total : List ℚ) (per : List (String × List ℚ)) (res : ScheduleResult)
    (hnsrc : (site.sources.map PowerSource.name).Nodup)
    (hnsink : (site.sinks.map PowerSink.name).Nodup)
    (hcomp : compute_sink_loads_by_hour site.sinks hours duty = Except.ok (total, per))
    (hnn : ∀ p ∈ per, ∀ q ∈ p.2, 0 ≤ q)
    (hrun : generate_schedule site hours policy duty asg = Except.ok res)
    (h : ℕ) (hh : h < hours) :
    sumAt res.source_power_w h + res.unmet_load_w.getD h 0 = total.getD h 0 := by
  rcases generate_schedule_ok_inv site hours policy duty asg res total per hcomp hrun with
    ⟨out, hout, hpw, _, hun, _⟩
  have hsum := allocHours_sum
    ⟨site.sources, per, asg, sources_by_name_dict site.sources,
     default_order_of policy site.sources.enum, sinks_by_name_dict site.sinks⟩
    hours (List.range hours)
    ⟨reset_source_schedules site.sources hours, init_remaining site.sources,
     init_source_power site.sources hours⟩
    (List.replicate hours 0) (init_snaps site.sources) out hout
    (default_order_valid site.sources policy)
    (fun nm p hp => sources_by_name_valid site.sources nm p hp)
    (List.nodup_range hours)
    (fun h2 hm => List.mem_range.mp hm)
    (init_StInv site.sources hours hnsrc)
    (List.length_replicate hours 0)
    (fun h2 nm => sinkDemand_nonneg
      ⟨site.sources, per, asg, sources_by_name_dict site.sources,
       default_order_of policy site.sources.enum, sinks_by_name_dict site.sinks⟩ hnn h2 nm)
  have e1 := hsum.1 h (List.mem_range.mpr hh)
  rcases compute_loop_demand_sum hours duty site.sinks (List.replicate hours 0) [] total per
    hcomp hnsink (fun sk _ hmem => by simp at hmem) (List.length_replicate hours 0) with
    ⟨_, hTot, _⟩
  have hmaps : ((sinks_by_name_dict site.sinks).map (fun it =>
      sinkDemand
        ⟨site.sources, per, asg, sources_by_name_dict site.sources,
         default_order_of policy site.sources.enum, sinks_by_name_dict site.sinks⟩ h it.1)) =
      site.sinks.map (fun sk => ((dlookup per sk.name).getD []).getD h 0) := by
    rw [sinks_by_name_eq site.sinks hnsink, List.map_map]
    apply List.map_congr_left
    intro sk _
    rfl
  rw [sumAt_init_source_power, hmaps] at e1
  rw [hpw, hun, hTot h hh, getD_replicate_zero]
  linarith [e1]

set_option maxRecDepth 40000 in
/-- C1 witness: the amended conservation theorem applied to the
concrete drained scenario at hour 0. -/
theorem conservation_witness :
    sumAt res_drain_demo.source_power_w 0 + res_drain_demo.unmet_load_w.getD 0 0 =
      (List.replicate 24 (500 : ℚ)).getD 0 0 :=
  conservation_of_nonneg_demand site_drain_demo 24 "battery_last" none none
    (List.replicate 24 500) [("station", List.replicate 24 500)] res_drain_demo
    (by with_unfolding_all decide) (by with_unfolding_all decide)
    (by with_unfolding_all decide) (by with_unfolding_all decide)
    (by with_unfolding_all decide) 0 (by decide)

/-! ### Claim C9 -/

/-- C9: for every Site whose source names are pairwise distinct, after
a successful run of generate_schedule, for every source (site index i,
object s) the returned series `source_power_w[s.name]` is exactly the
mutated in-place schedule of that source object (the i-th entry of the
schedules state), and that schedule has length H. -/
theorem power_series_eq_schedule (site : FieldDaySite) (hours : ℕ) (policy : String)
    (duty : Option (List (String × List ℚ))) (asg : Option (List (String × List String)))
    (res : ScheduleResult)
    (hnsrc : (site.sources.map PowerSource.name).Nodup)
    (hrun : generate_schedule site hours policy duty asg = Except.ok res)
    (i : ℕ) (s : PowerSource) (hs : site.sources[i]? = some s) :
    dlookup res.source_power_w s.name = some (res.schedules.getD i []) ∧
    (res.schedules.getD i []).length = hours := by
  rcases generate_schedule_ok_compute site hours policy duty asg res hrun with
    ⟨total, per, hcomp⟩
  rcases generate_schedule_ok_inv site hours policy duty asg res total per hcomp hrun with
    ⟨out, hout, hpw, _, _, hsched⟩
  have hsync := allocHours_sync
    ⟨site.sources, per, asg, sources_by_name_dict site.sources,
     default_order_of policy site.sources.enum, sinks_by_name_dict site.sinks⟩
    hours (List.range hours)
    ⟨reset_source_schedules site.sources hours, init_remaining site.sources,
     init_source_power site.sources hours⟩
    (List.replicate hours 0) (init_snaps site.sources) out hout hnsrc
    (default_order_valid site.sources policy)
    (fun nm p hp => sources_by_name_valid site.sources nm p hp)
    (fun h2 hm => List.mem_range.mp hm)
    (init_StInv site.sources hours hnsrc)
    (init_sync site.sources hours hnsrc)
  have hinvF := allocHours_inv
    ⟨site.sources, per, asg, sources_by_name_dict site.sources,
     default_order_of policy site.sources.enum, sinks_by_name_dict site.sinks⟩
    hours (List.range hours)
    ⟨reset_source_schedules site.sources hours, init_remaining site.sources,
     init_source_power site.sources hours⟩
    (List.replicate hours 0) (init_snaps site.sources) out hout
    (default_order_valid site.sources policy)
    (fun nm p hp => sources_by_name_valid site.sources nm p hp)
    (fun h2 hm => List.mem_range.mp hm)
    (init_StInv site.sources hours hnsrc)
  constructor
  · rw [hpw, hsched]
    exact hsync i s hs
  · rw [hsched]
    have hi : i < out.1.schedules.length := by
      rw [hinvF.sched_len]
      exact lt_length_of_getElem? site.sources i s hs
    exact hinvF.sched_lens _ (getD_mem_of_lt _ _ _ hi)

set_option maxRecDepth 40000 in
/-- C9 witness: the theorem applied to the concrete drained scenario
at source index 0. -/
theorem power_series_eq_schedule_witness :
    dlookup res_drain_demo.source_power_w "gen" =
      some (res_drain_demo.schedules.getD 0 []) ∧
    (res_drain_demo.schedules.getD 0 []).length = 24 :=
  power_series_eq_schedule site_drain_demo 24 "battery_last" none none res_drain_demo
    (by with_unfolding_all decide) (by with_unfolding_all decide)
    0 ⟨"gen", 1000, 120, Energy.fin 1000⟩ rfl

/-! ### Claim C7 -/

/-- C7 (amended): for every Site whose source names are pairwise
distinct (forced by the duplicate-name counterexample, where the
name-keyed dict merges two sources), every source s with the infinite
energy sentinel, and every successful run of generate_schedule, the
output series `source_energy_remaining_wh[s.name]` has length H and
every entry equals the inf sentinel, regardless of horizon, demand,
duty map, assignment map and policy. -/
theorem infinite_invariance (site : FieldDaySite) (hours : ℕ) (policy : String)
    (duty : Option (List (String × List ℚ))) (asg : Option (List (String × List String)))
    (res : ScheduleResult) (s : PowerSource)
    (hnsrc : (site.sources.map PowerSource.name).Nodup)
    (hs : s ∈ site.sources) (hinf : s.total_energy_wh = Energy.inf)
    (hrun : generate_schedule site hours policy duty asg = Except.ok res) :
    ∃ series, dlookup res.source_energy_remaining_wh s.name = some series ∧
      series.length = hours ∧ ∀ x ∈ series, x = Energy.inf := by
  rcases generate_schedule_ok_compute site hours policy duty asg res hrun with
    ⟨total, per, hcomp⟩
  rcases generate_schedule_ok_inv site hours policy duty asg res total per hcomp hrun with
    ⟨out, hout, _, hen, _, _⟩
  rcases allocHours_snaps
    ⟨site.sources, per, asg, sources_by_name_dict site.sources,
     default_order_of policy site.sources.enum, sinks_by_name_dict site.sinks⟩
    (List.range hours)
    ⟨reset_source_schedules site.sources hours, init_remaining site.sources,
     init_source_power site.sources hours⟩
    (List.replicate hours 0) (init_snaps site.sources) out hout hnsrc
    s.name (List.mem_map_of_mem PowerSource.name hs)
    s.total_energy_wh (init_remaining_lookup site.sources hnsrc s hs)
    [s.total_energy_wh] (init_snaps_lookup site.sources hnsrc s hs) with
    ⟨post, hpost, hplen, hdesc⟩
  have hplen2 : post.length = hours := by
    rw [hplen, List.length_range]
  refine ⟨post, ?_, hplen2, ?_⟩
  · rw [hen, dlookup_snaps_map, hpost, Option.map_some']
    have hdrop : (([s.total_energy_wh] ++ post).drop 1) = post := rfl
    rw [hdrop, List.take_of_length_le (by rw [hplen2])]
  · rw [hinf] at hdesc
    exact DescFrom_inf Energy.inf post hdesc rfl

/-- C7 witness: the theorem applied to the one-infinite-source site
with a skipped negative-demand sink, one hour. -/
theorem infinite_invariance_witness :
    ∃ series, dlookup res_negative_demand.source_energy_remaining_wh "a" = some series ∧
      series.length = 1 ∧ ∀ x ∈ series, x = Energy.inf :=
  infinite_invariance site_negative_demand 1 "battery_last" none none
    res_negative_demand ⟨"a", 100, 12, Energy.inf⟩
    (by with_unfolding_all decide) (by with_unfolding_all decide) rfl
    (by with_unfolding_all decide)

/-! ### Claim C5 -/

/-- C5 (amended): for every Site whose source names are pairwise
distinct, every finite-energy source s with nonnegative energy budget
(`total_energy_wh = fin t`, `0 ≤ t`; nonnegativity is forced by the
negative-energy counterexample) and every successful run of
generate_schedule with horizon H, the output series
`source_energy_remaining_wh[s.name]` consists of finite values qs of
length H that are non-increasing across hours, never negative, and
whose first entry is at most t. -/
theorem energy_monotone (site : FieldDaySite) (hours : ℕ) (policy : String)
    (duty : Option (List (String × List ℚ))) (asg : Option (List (String × List String)))
    (res : ScheduleResult) (s : PowerSource) (t : ℚ)
    (hnsrc : (site.sources.map PowerSource.name).Nodup)
    (hs : s ∈ site.sources) (hfin : s.total_energy_wh = Energy.fin t) (ht : 0 ≤ t)
    (hrun : generate_schedule site hours policy duty asg = Except.ok res) :
    ∃ qs : List ℚ,
      dlookup res.source_energy_remaining_wh s.name = some (qs.map Energy.fin) ∧
      qs.length = hours ∧ List.Chain' (fun a b => b ≤ a) qs ∧
      (∀ q ∈ qs, 0 ≤ q) ∧ (∀ q, qs.head? = some q → q ≤ t) := by
  rcases generate_schedule_ok_compute site hours policy duty asg res hrun with
    ⟨total, per, hcomp⟩
  rcases generate_schedule_ok_inv site hours policy duty asg res total per hcomp hrun with
    ⟨out, hout, _, hen, _, _⟩
  rcases allocHours_snaps
    ⟨site.sources, per, asg, sources_by_name_dict site.sources,
     default_order_of policy site.sources.enum, sinks_by_name_dict site.sinks⟩
    (List.range hours)
    ⟨reset_source_schedules site.sources hours, init_remaining site.sources,
     init_source_power site.sources hours⟩
    (List.replicate hours 0) (init_snaps site.sources) out hout hnsrc
    s.name (List.mem_map_of_mem PowerSource.name hs)
    s.total_energy_wh (init_remaining_lookup site.sources hnsrc s hs)
    [s.total_energy_wh] (init_snaps_lookup site.sources hnsrc s hs) with
    ⟨post, hpost, hplen, hdesc⟩
  have hplen2 : post.length = hours := by
    rw [hplen, List.length_range]
  rcases DescFrom_fin s.total_energy_wh post hdesc t hfin ht with
    ⟨qs, hqs, hchain, hpos, hhead⟩
  refine ⟨qs, ?_, ?_, hchain, hpos, hhead⟩
  · rw [hen, dlookup_snaps_map, hpost, Option.map_some']
    have hdrop : (([s.total_energy_wh] ++ post).drop 1) = post := rfl
    rw [hdrop, List.take_of_length_le (by rw [hplen2]), hqs]
  · rw [← hplen2, hqs, List.length_map]

set_option maxRecDepth 40000 in
/-- C5 witness: the amended theorem applied to the concrete drained
scenario (finite 1000 Wh source). -/
theorem energy_monotone_witness :
    ∃ qs : List ℚ,
      dlookup res_drain_demo.source_energy_remaining_wh "gen" =
        some (qs.map Energy.fin) ∧
      qs.length = 24 ∧ List.Chain' (fun a b => b ≤ a) qs ∧
      (∀ q ∈ qs, 0 ≤ q) ∧ (∀ q, qs.head? = some q → q ≤ 1000) :=
  energy_monotone site_drain_demo 24 "battery_last" none none res_drain_demo
    ⟨"gen", 1000, 120, Energy.fin 1000⟩ 1000
    (by with_unfolding_all decide) (by with_unfolding_all decide) rfl
    (by with_unfolding_all decide) (by with_unfolding_all decide)

/-! ### Claim C4 -/

/-- C4 (amended): the unknown-source check runs only for a sink with
positive demand (forced by the zero-demand counterexample, where the
run succeeds).  If the assignment map gives a sink name n of the Site
(an entry of the per-sink demand map) a candidate list containing a
name that is not the name of any source, and that sink has positive
duty-scaled demand at some hour h < H, then generate_schedule fails
with the unknown-source ValidationError and returns no result (and in
this embedding no state of the partial solve is exposed). -/
theorem unknown_source_fails (site : FieldDaySite) (hours : ℕ) (policy : String)
    (duty : Option (List (String × List ℚ))) (asg : List (String × List String))
    (total : List ℚ) (per : List (String × List ℚ))
    (hcomp : compute_sink_loads_by_hour site.sinks hours duty = Except.ok (total, per))
    (n : String) (sched : List ℚ) (hper : dlookup per n = some sched)
    (names : List String) (hasg : dlookup asg n = some names)
    (bad : String) (hbad : bad ∈ names)
    (hunknown : bad ∉ site.sources.map PowerSource.name)
    (h : ℕ) (hh : h < hours) (hdem : 0 < sched.getD h 0) :
    ∃ nm, generate_schedule site hours policy duty (some asg) =
      Except.error ("Assignment references unknown source: " ++ nm) := by
  rcases hres : generate_schedule site hours policy duty (some asg) with e | res
  · have herr := generate_schedule_err_inv site hours policy duty (some asg) e total per
      hcomp hres
    rcases allocHours_error_shape _ _ _ _ _ _ herr with ⟨nm, hnm⟩
    exact ⟨nm, by rw [hnm]⟩
  · exfalso
    rcases generate_schedule_ok_inv site hours policy duty (some asg) res total per
      hcomp hres with ⟨out, hout, _, _, _, _⟩
    have hkeys1 : per.map Prod.fst =
        site.sinks.foldl (fun ks sk => if sk.name ∈ ks then ks else ks ++ [sk.name]) [] := by
      rw [compute_loop_keys hours duty site.sinks (List.replicate hours 0) [] total per hcomp]
      rfl
    have hkeys2 : (sinks_by_name_dict site.sinks).map Prod.fst =
        site.sinks.foldl (fun ks sk => if sk.name ∈ ks then ks else ks ++ [sk.name]) [] := by
      unfold sinks_by_name_dict
      rw [sinks_by_name_keys site.sinks []]
      rfl
    have hnk : n ∈ (sinks_by_name_dict site.sinks).map Prod.fst := by
      rw [hkeys2, ← hkeys1]
      exact dlookup_mem_keys per n sched hper
    rcases dlookup_isSome_of_mem_keys _ _ hnk with ⟨sk, hsk⟩
    have hitem : (n, sk) ∈ sinks_by_name_dict site.sinks := mem_of_dlookup _ _ _ hsk
    have hdem2 : 0 < sinkDemand
        ⟨site.sources, per, some asg, sources_by_name_dict site.sources,
         default_order_of policy site.sources.enum, sinks_by_name_dict site.sinks⟩ h n := by
      show 0 < ((dlookup per n).getD []).getD h 0
      rw [hper]
      simpa using hdem
    rcases allocHours_resolved
      ⟨site.sources, per, some asg, sources_by_name_dict site.sources,
       default_order_of policy site.sources.enum, sinks_by_name_dict site.sinks⟩
      (List.range hours)
      ⟨reset_source_schedules site.sources hours, init_remaining site.sources,
       init_source_power site.sources hours⟩
      (List.replicate hours 0) (init_snaps site.sources) out hout h
      (List.mem_range.mpr hh) (n, sk) hitem hdem2 with ⟨cands, hcands⟩
    simp only [sinkCands, hasg] at hcands
    rcases resolveCands_ok_lookup _ _ _ hcands bad hbad with ⟨p, hp⟩
    exact hunknown (sources_by_name_keys_sub site.sources bad (dlookup_mem_keys _ _ _ hp))

/-- C4 witness: the amended theorem applied to a concrete site whose
sink "s" has positive demand and whose assignment names the unknown
source "zz": the solve fails with the unknown-source error. -/
theorem unknown_source_fails_witness :
    ∃ nm, generate_schedule site_bad_assignment_pos 1 "battery_last" none
        (some [("s", ["zz"])]) =
      Except.error ("Assignment references unknown source: " ++ nm) :=
  unknown_source_fails site_bad_assignment_pos 1 "battery_last" none
    [("s", ["zz"])] [50] [("s", [50])]
    (by with_unfolding_all decide) "s" [50] (by with_unfolding_all decide)
    ["zz"] (by with_unfolding_all decide) "zz" (by decide)
    (by with_unfolding_all decide) 0 (by decide) (by with_unfolding_all decide)

/-! ### Claim C8: dicts that agree away from one key -/

theorem forall2_keys {α : Type} (k : String) (d d2 : List (String × α))
    (h : List.Forall₂ (fun pr pq => pr.1 = pq.1 ∧ (pr.1 ≠ k → pr.2 = pq.2)) d d2) :
    d.map Prod.fst = d2.map Prod.fst := by
  induction h with
  | nil => rfl
  | cons h1 _ ih =>
      simp only [List.map_cons, ih]
      rw [h1.1]

theorem forall2_eq_of_not_mem {α : Type} (k : String) (d d2 : List (String × α))
    (h : List.Forall₂ (fun pr pq => pr.1 = pq.1 ∧ (pr.1 ≠ k → pr.2 = pq.2)) d d2)
    (hk : k ∉ d.map Prod.fst) : d = d2 := by
  induction d generalizing d2 with
  | nil => cases h; rfl
  | cons p rest ih =>
      cases h with
      | cons h1 h2 =>
          rename_i b l2
          simp only [List.map_cons, List.mem_cons, not_or] at hk
          have hpb : p = b := Prod.ext h1.1 (h1.2 (fun he => hk.1 he.symm))
          rw [hpb, ih l2 h2 hk.2]

theorem forall2_dinsert {α : Type} (k k2 : String) (v : α) (d d2 : List (String × α))
    (h : List.Forall₂ (fun pr pq => pr.1 = pq.1 ∧ (pr.1 ≠ k → pr.2 = pq.2)) d d2) :
    List.Forall₂ (fun pr pq => pr.1 = pq.1 ∧ (pr.1 ≠ k → pr.2 = pq.2))
      (dinsert d k2 v) (dinsert d2 k2 v) := by
  induction d generalizing d2 with
  | nil =>
      cases h
      exact List.Forall₂.cons ⟨rfl, fun _ => rfl⟩ List.Forall₂.nil
  | cons p rest ih =>
      cases h with
      | cons h1 h2 =>
          rename_i b l2
          simp only [dinsert]
          by_cases hp : p.1 = k2
          · rw [if_pos hp, if_pos (h1.1.symm.trans hp)]
            exact List.Forall₂.cons ⟨rfl, fun _ => rfl⟩ h2
          · rw [if_neg hp, if_neg (fun hb => hp (h1.1.trans hb))]
            exact List.Forall₂.cons h1 (ih l2 h2)

theorem forall2_dinsert_self {α : Type} (k : String) (a b : α) (d : List (String × α)) :
    List.Forall₂ (fun pr pq => pr.1 = pq.1 ∧ (pr.1 ≠ k → pr.2 = pq.2))
      (dinsert d k a) (dinsert d k b) := by
  induction d with
  | nil => exact List.Forall₂.cons ⟨rfl, fun hne => absurd rfl hne⟩ List.Forall₂.nil
  | cons p rest ih =>
      simp only [dinsert]
      by_cases hp : p.1 = k
      · rw [if_pos hp, if_pos hp]
        exact List.Forall₂.cons ⟨rfl, fun hne => absurd rfl hne⟩
          (List.forall₂_same.mpr (fun x _ => ⟨rfl, fun _ => rfl⟩))
      · rw [if_neg hp, if_neg hp]
        exact List.Forall₂.cons ⟨rfl, fun _ => rfl⟩ ih

theorem dinsert_eq_of_forall2 {α : Type} (k : String) (v : α) (d d2 : List (String × α))
    (h : List.Forall₂ (fun pr pq => pr.1 = pq.1 ∧ (pr.1 ≠ k → pr.2 = pq.2)) d d2)
    (hnd : (d.map Prod.fst).Nodup) : dinsert d k v = dinsert d2 k v := by
  induction d generalizing d2 with
  | nil => cases h; rfl
  | cons p rest ih =>
      cases h with
      | cons h1 h2 =>
          rename_i b l2
          simp only [List.map_cons, List.nodup_cons] at hnd
          simp only [dinsert]
          by_cases hp : p.1 = k
          · rw [if_pos hp, if_pos (h1.1.symm.trans hp)]
            rw [forall2_eq_of_not_mem k rest l2 h2 (hp ▸ hnd.1)]
          · rw [if_neg hp, if_neg (fun hb => hp (h1.1.trans hb))]
            have hpb : p = b := Prod.ext h1.1 (h1.2 hp)
            rw [hpb, ih l2 h2 hnd.2]

theorem keys_dinsert_nodup {α : Type} (d : List (String × α)) (k : String) (v : α)
    (hnd : (d.map Prod.fst).Nodup) : ((dinsert d k v).map Prod.fst).Nodup := by
  rw [keys_dinsert_eq]
  by_cases hk : k ∈ d.map Prod.fst
  · rw [if_pos hk]
    exact hnd
  · rw [if_neg hk]
    exact List.Nodup.append hnd (List.nodup_singleton k)
      (List.disjoint_singleton.mpr hk)

theorem foldl_dinsert_keys_nodup {α β : Type} (f : β → String) (g : β → α)
    (l : List β) (d : List (String × α)) (hnd : (d.map Prod.fst).Nodup) :
    ((l.foldl (fun dd b => dinsert dd (f b) (g b)) d).map Prod.fst).Nodup := by
  induction l generalizing d with
  | nil => exact hnd
  | cons b rest ih => exact ih _ (keys_dinsert_nodup d (f b) (g b) hnd)

theorem foldl_dinsert_agree {α β : Type} (f : β → String) (g : β → α) (k : String)
    (l : List β) (d d2 : List (String × α))
    (hrel : List.Forall₂ (fun pr pq => pr.1 = pq.1 ∧ (pr.1 ≠ k → pr.2 = pq.2)) d d2)
    (hnd : (d.map Prod.fst).Nodup) (hk : k ∈ l.map f) :
    l.foldl (fun dd b => dinsert dd (f b) (g b)) d =
      l.foldl (fun dd b => dinsert dd (f b) (g b)) d2 := by
  induction l generalizing d d2 with
  | nil => simp at hk
  | cons b rest ih =>
      simp only [List.foldl_cons]
      by_cases hb : f b = k
      · rw [hb, dinsert_eq_of_forall2 k (g b) d d2 hrel hnd]
      · have hk2 : k ∈ rest.map f := by
          simp only [List.map_cons, List.mem_cons] at hk
          rcases hk with h | h
          · exact absurd h.symm hb
          · exact h
        exact ih (dinsert d (f b) (g b)) (dinsert d2 (f b) (g b))
          (forall2_dinsert k (f b) (g b) d d2 hrel)
          (keys_dinsert_nodup d (f b) (g b) hnd) hk2

/-! ### Claim C8: decomposing the demand aggregation loop -/

theorem compute_loop_append (hours : ℕ) (duty : Option (List (String × List ℚ)))
    (l1 l2 : List PowerSink) (t : List ℚ) (p : List (String × List ℚ)) :
    compute_sink_loads_loop hours duty (l1 ++ l2) t p =
      match compute_sink_loads_loop hours duty l1 t p with
      | Except.error e => Except.error e
      | Except.ok (t1, p1) => compute_sink_loads_loop hours duty l2 t1 p1 := by
  induction l1 generalizing t p with
  | nil => rfl
  | cons sk rest ih =>
      simp only [List.cons_append, compute_sink_loads_loop]
      rcases hds : duty_scaled_sched sk hours duty with e | s
      · rfl
      · exact ih _ _

theorem duty_scaled_ok_parity (sk1 sk2 : PowerSink) (hname : sk2.name = sk1.name)
    (hours : ℕ) (duty : Option (List (String × List ℚ))) (s1 : List ℚ)
    (h1 : duty_scaled_sched sk1 hours duty = Except.ok s1) :
    ∃ s2, duty_scaled_sched sk2 hours duty = Except.ok s2 := by
  simp only [duty_scaled_sched] at h1 ⊢
  rcases duty with _ | sd
  · exact ⟨_, rfl⟩
  · rw [hname]
    rcases hdl : dlookup sd sk1.name with _ | dl
    · simp only [hdl]
      exact ⟨_, rfl⟩
    · simp only [hdl] at h1 ⊢
      by_cases hlen : dl.length = hours
      · rw [if_pos hlen]
        exact ⟨_, rfl⟩
      · rw [if_neg hlen] at h1
        exact Except.noConfusion h1

theorem compute_loop_per_nodup (hours : ℕ) (duty : Option (List (String × List ℚ)))
    (sinks : List PowerSink) (t : List ℚ) (p : List (String × List ℚ))
    (tt : List ℚ) (pp : List (String × List ℚ))
    (hok : compute_sink_loads_loop hours duty sinks t p = Except.ok (tt, pp))
    (hnd : (p.map Prod.fst).Nodup) : (pp.map Prod.fst).Nodup := by
  induction sinks generalizing t p with
  | nil =>
      simp only [compute_sink_loads_loop] at hok
      injection hok with h
      injection h with h1 h2
      rw [← h2]
      exact hnd
  | cons sk rest ih =>
      simp only [compute_sink_loads_loop] at hok
      rcases hds : duty_scaled_sched sk hours duty with e | s
      · simp only [hds] at hok
        exact Except.noConfusion hok
      · simp only [hds] at hok
        exact ih _ _ hok (keys_dinsert_nodup p sk.name s hnd)

theorem compute_loop_total_len (hours : ℕ) (duty : Option (List (String × List ℚ)))
    (sinks : List PowerSink) (t : List ℚ) (p : List (String × List ℚ))
    (tt : List ℚ) (pp : List (String × List ℚ))
    (hok : compute_sink_loads_loop hours duty sinks t p = Except.ok (tt, pp))
    (ht : t.length = hours) : tt.length = hours := by
  induction sinks generalizing t p with
  | nil =>
      simp only [compute_sink_loads_loop] at hok
      injection hok with h
      injection h with h1 h2
      rw [← h1]
      exact ht
  | cons sk rest ih =>
      simp only [compute_sink_loads_loop] at hok
      rcases hds : duty_scaled_sched sk hours duty with e | s
      · simp only [hds] at hok
        exact Except.noConfusion hok
      · simp only [hds] at hok
        exact ih _ _ hok
          (addSched_length t s hours ht (duty_scaled_length sk hours duty s hds))

theorem compute_loop_total_delta (hours : ℕ) (duty : Option (List (String × List ℚ)))
    (sinks : List PowerSink) (tt tt2 : List ℚ) (pp pp2 : List (String × List ℚ))
    (h : ℕ) (hh : h < hours) (t t2 : List ℚ) (p p2 : List (String × List ℚ))
    (h1 : compute_sink_loads_loop hours duty sinks t p = Except.ok (tt, pp))
    (h2 : compute_sink_loads_loop hours duty sinks t2 p2 = Except.ok (tt2, pp2))
    (ht : t.length = hours) (ht2 : t2.length = hours) :
    tt.getD h 0 + t2.getD h 0 = tt2.getD h 0 + t.getD h 0 := by
  induction sinks generalizing t t2 p p2 with
  | nil =>
      simp only [compute_sink_loads_loop] at h1 h2
      injection h1 with e1
      injection e1 with e1a e1b
      injection h2 with e2
      injection e2 with e2a e2b
      rw [← e1a, ← e2a]
      exact add_comm _ _
  | cons sk rest ih =>
      simp only [compute_sink_loads_loop] at h1 h2
      rcases hds : duty_scaled_sched sk hours duty with e | s
      · simp only [hds] at h1
        exact Except.noConfusion h1
      · simp only [hds] at h1 h2
        have hs : s.length = hours := duty_scaled_length sk hours duty s hds
        have hd := ih _ _ _ _ h1 h2
          (addSched_length t s hours ht hs) (addSched_length t2 s hours ht2 hs)
        rw [addSched_getD t s hours h ht hs hh, addSched_getD t2 s hours h ht2 hs hh] at hd
        linarith

theorem compute_loop_per_only (hours : ℕ) (duty : Option (List (String × List ℚ)))
    (sinks : List PowerSink) (t t2 : List ℚ) (p : List (String × List ℚ)) :
    (∃ e, compute_sink_loads_loop hours duty sinks t p = Except.error e ∧
      compute_sink_loads_loop hours duty sinks t2 p = Except.error e) ∨
    (∃ tot tot2 per, compute_sink_loads_loop hours duty sinks t p = Except.ok (tot, per) ∧
      compute_sink_loads_loop hours duty sinks t2 p = Except.ok (tot2, per)) := by
  induction sinks generalizing t t2 p with
  | nil => exact Or.inr ⟨t, t2, p, rfl, rfl⟩
  | cons sk rest ih =>
      rcases hds : duty_scaled_sched sk hours duty with e | s
      · refine Or.inl ⟨e, ?_, ?_⟩ <;> simp only [compute_sink_loads_loop, hds]
      · rcases ih (addSched t s) (addSched t2 s) (dinsert p sk.name s) with
          ⟨e, he1, he2⟩ | ⟨tot, tot2, per, ho1, ho2⟩
        · refine Or.inl ⟨e, ?_, ?_⟩ <;> simp only [compute_sink_loads_loop, hds]
          · exact he1
          · exact he2
        · refine Or.inr ⟨tot, tot2, per, ?_, ?_⟩ <;> simp only [compute_sink_loads_loop, hds]
          · exact ho1
          · exact ho2

theorem compute_loop_agree (hours : ℕ) (duty : Option (List (String × List ℚ)))
    (k : String) (rest : List PowerSink) (t t2 : List ℚ)
    (p p2 : List (String × List ℚ))
    (hrel : List.Forall₂ (fun pr pq => pr.1 = pq.1 ∧ (pr.1 ≠ k → pr.2 = pq.2)) p p2)
    (hnd : (p.map Prod.fst).Nodup) (hk : k ∈ rest.map PowerSink.name) :
    (∃ e, compute_sink_loads_loop hours duty rest t p = Except.error e ∧
      compute_sink_loads_loop hours duty rest t2 p2 = Except.error e) ∨
    (∃ tot tot2 per, compute_sink_loads_loop hours duty rest t p = Except.ok (tot, per) ∧
      compute_sink_loads_loop hours duty rest t2 p2 = Except.ok (tot2, per)) := by
  induction rest generalizing t t2 p p2 with
  | nil => simp at hk
  | cons sk rest2 ih =>
      rcases hds : duty_scaled_sched sk hours duty with e | s
      · refine Or.inl ⟨e, ?_, ?_⟩ <;> simp only [compute_sink_loads_loop, hds]
      · by_cases hb : sk.name = k
        · have heq : dinsert p sk.name s = dinsert p2 sk.name s := by
            rw [hb]
            exact dinsert_eq_of_forall2 k s p p2 hrel hnd
          rcases compute_loop_per_only hours duty rest2 (addSched t s) (addSched t2 s)
              (dinsert p sk.name s) with ⟨e, he1, he2⟩ | ⟨tot, tot2, per, ho1, ho2⟩
          · refine Or.inl ⟨e, ?_, ?_⟩ <;> simp only [compute_sink_loads_loop, hds]
            · exact he1
            · rw [← heq]
              exact he2
          · refine Or.inr ⟨tot, tot2, per, ?_, ?_⟩ <;> simp only [compute_sink_loads_loop, hds]
            · exact ho1
            · rw [← heq]
              exact ho2
        · have hk2 : k ∈ rest2.map PowerSink.name := by
            simp only [List.map_cons, List.mem_cons] at hk
            rcases hk with h | h
            · exact absurd h.symm hb
            · exact h
          rcases ih _ _ _ _ (forall2_dinsert k sk.name s p p2 hrel)
              (keys_dinsert_nodup p sk.name s hnd) hk2 with
            ⟨e, he1, he2⟩ | ⟨tot, tot2, per, ho1, ho2⟩
          · refine Or.inl ⟨e, ?_, ?_⟩ <;> simp only [compute_sink_loads_loop, hds]
            · exact he1
            · exact he2
          · refine Or.inr ⟨tot, tot2, per, ?_, ?_⟩ <;> simp only [compute_sink_loads_loop, hds]
            · exact ho1
            · exact ho2

/-! ### Claim C8 -/

/-- C8: a site whose sink list contains two sinks with the same name:
an earlier sink sk1 and, anywhere later in the list, another sink with
the same name (arbitrary other sinks may precede, separate or follow
them).  Then (1) the hourly total computed by
compute_sink_loads_by_hour counts both sinks' demand: the full total
exceeds the total of the site with the earlier duplicate removed by
exactly the earlier sink's duty-scaled demand; (2) the per-sink dict
keeps only the later profile: replacing the earlier sink by ANY sink
of the same name leaves the per-sink dict unchanged (the dict write at
line 64 overwrites); and (3) the allocation loop, which iterates the
name-keyed sinks_by_name dict, produces exactly the same
generate_schedule outcome after that replacement: the earlier sink's
demand is neither supplied by any source nor counted in
unmet_load_w. -/
theorem duplicate_sink_names (sources : List PowerSource) (pre rest : List PowerSink)
    (sk1 sk1' : PowerSink) (hname : sk1'.name = sk1.name)
    (hlater : sk1.name ∈ rest.map PowerSink.name)
    (hours : ℕ) (policy : String) (duty : Option (List (String × List ℚ)))
    (asg : Option (List (String × List String)))
    (total total2 : List ℚ) (per per2 : List (String × List ℚ)) (s1 : List ℚ)
    (hfull : compute_sink_loads_by_hour (pre ++ sk1 :: rest) hours duty =
      Except.ok (total, per))
    (hdrop : compute_sink_loads_by_hour (pre ++ rest) hours duty =
      Except.ok (total2, per2))
    (hs1 : duty_scaled_sched sk1 hours duty = Except.ok s1) :
    (∀ h, h < hours → total.getD h 0 = total2.getD h 0 + s1.getD h 0) ∧
    (∃ total3, compute_sink_loads_by_hour (pre ++ sk1' :: rest) hours duty =
      Except.ok (total3, per)) ∧
    generate_schedule ⟨sources, pre ++ sk1 :: rest⟩ hours policy duty asg =
      generate_schedule ⟨sources, pre ++ sk1' :: rest⟩ hours policy duty asg := by
  have hfull0 := hfull
  unfold compute_sink_loads_by_hour at hfull hdrop
  rw [compute_loop_append] at hfull hdrop
  rcases hpre : compute_sink_loads_loop hours duty pre (List.replicate hours 0) []
    with e | tp
  · simp only [hpre] at hfull
    exact Except.noConfusion hfull
  obtain ⟨t1, p1⟩ := tp
  simp only [hpre] at hfull hdrop
  simp only [compute_sink_loads_loop, hs1] at hfull
  have ht1 : t1.length = hours :=
    compute_loop_total_len hours duty pre (List.replicate hours 0) [] t1 p1 hpre
      (by simp)
  have hp1nd : (p1.map Prod.fst).Nodup :=
    compute_loop_per_nodup hours duty pre (List.replicate hours 0) [] t1 p1 hpre
      (by simp)
  have hs1len : s1.length = hours := duty_scaled_length sk1 hours duty s1 hs1
  have hA : ∀ h, h < hours → total.getD h 0 = total2.getD h 0 + s1.getD h 0 := by
    intro h hh
    have hd := compute_loop_total_delta hours duty rest total total2 per per2 h hh
      (addSched t1 s1) t1 (dinsert p1 sk1.name s1) p1 hfull hdrop
      (addSched_length t1 s1 hours ht1 hs1len) ht1
    rw [addSched_getD t1 s1 hours h ht1 hs1len hh] at hd
    linarith
  obtain ⟨s1', hs1'⟩ := duty_scaled_ok_parity sk1 sk1' hname hours duty s1 hs1
  rcases compute_loop_agree hours duty sk1.name rest (addSched t1 s1) (addSched t1 s1')
      (dinsert p1 sk1.name s1) (dinsert p1 sk1.name s1')
      (forall2_dinsert_self sk1.name s1 s1' p1)
      (keys_dinsert_nodup p1 sk1.name s1 hp1nd) hlater with
    ⟨e, he1, _⟩ | ⟨tot, tot2, perX, ho1, ho2⟩
  · rw [hfull] at he1
    exact Except.noConfusion he1
  rw [hfull] at ho1
  injection ho1 with hinj
  injection hinj with htot hper
  rw [← hper] at ho2
  have hB : compute_sink_loads_by_hour (pre ++ sk1' :: rest) hours duty =
      Except.ok (tot2, per) := by
    unfold compute_sink_loads_by_hour
    rw [compute_loop_append]
    simp only [hpre]
    simp only [compute_sink_loads_loop, hs1', hname]
    exact ho2
  have hsbn : sinks_by_name_dict (pre ++ sk1 :: rest) =
      sinks_by_name_dict (pre ++ sk1' :: rest) := by
    unfold sinks_by_name_dict
    rw [List.foldl_append, List.foldl_append]
    simp only [List.foldl_cons]
    rw [hname]
    exact foldl_dinsert_agree PowerSink.name id sk1.name rest _ _
      (forall2_dinsert_self sk1.name sk1 sk1' _)
      (keys_dinsert_nodup _ sk1.name sk1
        (foldl_dinsert_keys_nodup PowerSink.name id pre [] (by simp)))
      hlater
  refine ⟨hA, ⟨tot2, hB⟩, ?_⟩
  unfold generate_schedule
  simp only [hfull0, hB]
  rw [hsbn]

set_option maxRecDepth 10000 in
/-- C8 witness: a concrete four-sink site "q", "s" (10 W), "m",
"s" (20 W), all always on for one hour.  The total 33 W exceeds the
total 23 W of the site without the earlier "s" by that sink's 10 W,
the per-sink dict keeps the 20 W profile for "s" (also when the
earlier "s" is replaced by a 30 W sink of the same name), and the
solve is unchanged by that replacement. -/
theorem duplicate_sink_names_witness :
    (∀ h, h < 1 → ([33] : List ℚ).getD h 0 = ([23] : List ℚ).getD h 0 +
      ([10] : List ℚ).getD h 0) ∧
    (∃ total3, compute_sink_loads_by_hour
        ([⟨"q", [⟨"qc", 1, List.replicate 24 1⟩]⟩] ++
          ⟨"s", [⟨"z", 30, List.replicate 24 1⟩]⟩ ::
          [⟨"m", [⟨"mc", 2, List.replicate 24 1⟩]⟩,
           ⟨"s", [⟨"y", 20, List.replicate 24 1⟩]⟩]) 1 none =
      Except.ok (total3, [("q", [1]), ("s", [20]), ("m", [2])])) ∧
    generate_schedule ⟨[⟨"a", 100, 12, Energy.inf⟩],
        [⟨"q", [⟨"qc", 1, List.replicate 24 1⟩]⟩] ++
          ⟨"s", [⟨"x", 10, List.replicate 24 1⟩]⟩ ::
          [⟨"m", [⟨"mc", 2, List.replicate 24 1⟩]⟩,
           ⟨"s", [⟨"y", 20, List.replicate 24 1⟩]⟩]⟩ 1 "battery_last" none none =
      generate_schedule ⟨[⟨"a", 100, 12, Energy.inf⟩],
        [⟨"q", [⟨"qc", 1, List.replicate 24 1⟩]⟩] ++
          ⟨"s", [⟨"z", 30, List.replicate 24 1⟩]⟩ ::
          [⟨"m", [⟨"mc", 2, List.replicate 24 1⟩]⟩,
           ⟨"s", [⟨"y", 20, List.replicate 24 1⟩]⟩]⟩ 1 "battery_last" none none :=
  duplicate_sink_names [⟨"a", 100, 12, Energy.inf⟩]
    [⟨"q", [⟨"qc", 1, List.replicate 24 1⟩]⟩]
    [⟨"m", [⟨"mc", 2, List.replicate 24 1⟩]⟩, ⟨"s", [⟨"y", 20, List.replicate 24 1⟩]⟩]
    ⟨"s", [⟨"x", 10, List.replicate 24 1⟩]⟩ ⟨"s", [⟨"z", 30, List.replicate 24 1⟩]⟩
    rfl (by with_unfolding_all decide) 1 "battery_last" none none
    [33] [23] [("q", [1]), ("s", [20]), ("m", [2])] [("q", [1]), ("m", [2]), ("s", [20])]
    [10] (by with_unfolding_all decide) (by with_unfolding_all decide)
    (by with_unfolding_all decide)
